import Mathlib

/-!
The external module registry of k6, package `js/modules`.

A shallow embedding of `js/modules/modules.go` (package `modules`):
the package-level map `modules`, the functions `Register` and `GetJSModules`,
and the facts about them.

Modelling choices.

* A Go `string` is a Lean `String`; `strings.HasPrefix` compares the leading
  characters (the prefix `"k6/x/"` is ASCII, so on well-formed text comparing
  characters and comparing bytes agree).
* A module value (`interface{}`) is a value of an arbitrary type `M`.
* A Go `map[string]interface{}` is a finite association list with pairwise
  distinct keys (`AList`).  `m[k] = v` is `AList.insert` (overwrite or add),
  `v, ok := m[k]` is `AList.lookup`, `delete(m, k)` is `AList.erase`, and
  `for k, v := range m` visits the entries in the order of the list.  The
  iteration order of a Go map is unspecified: every statement below holds for
  every representing list, hence for every iteration order.
* Maps are reference values.  The memory (`Mem`) holds the map object of the
  package variable `modules` and the map objects allocated by `make`; a
  reference (`Ref`) names one of them.
* A `panic` is an outcome (`some v`) next to the memory at the moment of the
  panic; a normal return is `none`.
* `Register` and `GetJSModules` are first given as functions of the memory, as
  one thread of control runs them.  The lock `mx` appears in the thread model:
  each call is a program executed statement by statement (the map write, not
  being indivisible, in two steps), `mx.Lock()` has a step only while the lock
  is free, and an interleaving is the order in which the threads take their
  steps.  All accesses to `modules` are made between
  `mx.Lock()` and `mx.Unlock()`; one thread running alone computes what the
  functions say (`register_thread_alone`, `getJSModules_thread_alone`).
* A value of the interface `VU` is the record of what its methods return at
  one moment, a nil pointer being `none`.  The source has no type implementing
  `VU`; the execution context behind an accessor (`ExecContext`) is modelled
  from the spec.  Package `reflect` is modelled on the method set an interface
  type declares, sorted by name.
-/

namespace modules

/-! ## Data model -/

/-- Go `map[string]interface{}` with module values of type `M`. -/
abbrev GoMap (M : Type) : Type := AList (fun _ : String => M)

/-- Go `strings.HasPrefix(s, pfx)`:
`len(s) >= len(pfx) && s[0:len(pfx)] == pfx`. -/
def HasPrefix (s pfx : String) : Bool :=
  decide (pfx.length ≤ s.length) && (s.data.take pfx.length == pfx.data)

/-- Go `const extPrefix string = "k6/x/"`. -/
def extPrefix : String := "k6/x/"

/-- Value carried by a `panic`: `Register` panics either with an `error`
(built by `fmt.Errorf`) or with a plain `string` (built by `fmt.Sprintf`). -/
inductive PanicValue where
  | error (msg : String)
  | str (msg : String)
  deriving DecidableEq

/-- Reference to a map object: the object of the package variable `modules`,
or the object allocated by the `addr`-th `make`. -/
inductive Ref where
  | pkg
  | obj (addr : Nat)
  deriving DecidableEq

/-- Memory of the package: the map held by `var modules`, and the map objects
allocated so far by `make` (the address of an object is its index). -/
structure Mem (M : Type) where
  modules : GoMap M
  heap : List (GoMap M)

/-- Memory right after package initialisation:
`modules = make(map[string]interface{})`, nothing else allocated. -/
def Mem.init (M : Type) : Mem M := { modules := ∅, heap := [] }

/-- The map object a reference points to (`none` for an address never
allocated). -/
def Mem.load {M : Type} (w : Mem M) : Ref → Option (GoMap M)
  | Ref.pkg => some w.modules
  | Ref.obj a => w.heap[a]?

/-- Go `make(map[string]interface{}, n)`: allocates a fresh empty map (the
capacity hint `n` has no observable effect) and returns its reference. -/
def Mem.make {M : Type} (w : Mem M) : Mem M × Ref :=
  ({ w with heap := w.heap ++ [∅] }, Ref.obj w.heap.length)

/-- Applies `f` to the map object behind a reference, in place.  An address
never allocated is the reference of no map: nothing is written there. -/
def Mem.update {M : Type} (w : Mem M) (r : Ref) (f : GoMap M → GoMap M) : Mem M :=
  match r with
  | Ref.pkg => { w with modules := f w.modules }
  | Ref.obj a =>
    match w.heap[a]? with
    | some mp => { w with heap := w.heap.set a (f mp) }
    | none => w

/-- Go `r[k] = v` through a reference `r`. -/
def Mem.store {M : Type} (w : Mem M) (r : Ref) (k : String) (v : M) : Mem M :=
  w.update r (fun mp => mp.insert k v)

/-- Go `delete(r, k)` through a reference `r`. -/
def Mem.delete {M : Type} (w : Mem M) (r : Ref) (k : String) : Mem M :=
  w.update r (fun mp => mp.erase k)

/-! ## The package functions -/

/-- Message of the `error` panic of `Register`:
`fmt.Errorf("external module names must be prefixed with '%s', tried to register: %s", extPrefix, name)`. -/
def prefixMsg (name : String) : String :=
  "external module names must be prefixed with '" ++ extPrefix ++
    "', tried to register: " ++ name

/-- Message of the `string` panic of `Register`:
`fmt.Sprintf("module already registered: %s", name)`. -/
def duplicateMsg (name : String) : String :=
  "module already registered: " ++ name

/-- Go `func Register(name string, mod interface{})`, run by one thread of
control with the lock `mx` free: the memory after the call and the panic
value, if the call panicked.  `mx.Lock()` and the deferred `mx.Unlock()` leave
the lock as they found it; they are explicit in the thread model below. -/
def Register {M : Type} (w : Mem M) (name : String) (mod : M) :
    Mem M × Option PanicValue :=
  if !HasPrefix name extPrefix then
    (w, some (PanicValue.error (prefixMsg name)))
  else
    match w.modules.lookup name with
    | some _ => (w, some (PanicValue.str (duplicateMsg name)))
    | none => (w.store Ref.pkg name mod, none)

/-- Body of the loop `for name, module := range src { result[name] = module }`
over the entries of `src`, in their order. -/
def copyLoop {M : Type} (w : Mem M) (result : Ref) (src : List (Sigma fun _ : String => M)) :
    Mem M :=
  src.foldl (fun acc e => acc.store result e.1 e.2) w

/-- Go `func GetJSModules() map[string]interface{}`, run by one thread of
control with the lock `mx` free: the memory after the call and the returned
reference. -/
def GetJSModules {M : Type} (w : Mem M) : Mem M × Ref :=
  let a := w.make
  (copyLoop a.1 a.2 w.modules.entries, a.2)

/-- The mapping a caller reads through the reference returned by
`GetJSModules()`: the contents of the returned map right after the call. -/
def listed {M : Type} (w : Mem M) : Option (GoMap M) :=
  (GetJSModules w).1.load (GetJSModules w).2

/-- Two Go maps hold the same mapping: every key is bound in both to the same
value, or in neither. -/
def SameMapping {M : Type} (a b : GoMap M) : Prop :=
  ∀ k : String, a.lookup k = b.lookup k

/-- A change a caller makes to a map it holds: `mp[k] = v` (insert or
overwrite) or `delete(mp, k)`. -/
inductive Mutation (M : Type) where
  | set (k : String) (v : M)
  | del (k : String)

/-- The map after one mutation. -/
def Mutation.apply {M : Type} (mp : GoMap M) : Mutation M → GoMap M
  | Mutation.set k v => mp.insert k v
  | Mutation.del k => mp.erase k

/-- Performs the mutations, in order, on the map behind the reference `r`. -/
def mutate {M : Type} (w : Mem M) (r : Ref) : List (Mutation M) → Mem M
  | [] => w
  | Mutation.set k v :: rest => mutate (w.store r k v) r rest
  | Mutation.del k :: rest => mutate (w.delete r k) r rest

/-- A call of one of the two exported functions of the registry. -/
inductive Call (M : Type) where
  | register (name : String) (mod : M)
  | getJSModules

/-- Runs one call: the memory after it and its panic value, if it panicked.
`GetJSModules` has no `panic` statement. -/
def Call.exec {M : Type} (w : Mem M) : Call M → Mem M × Option PanicValue
  | Call.register name mod => Register w name mod
  | Call.getJSModules => ((GetJSModules w).1, none)

/-- Runs the calls one after the other (a panicking call is recovered by its
caller and the next call is made): the final memory and the outcome of every
call, in order. -/
def runCalls {M : Type} (w : Mem M) : List (Call M) → Mem M × List (Option PanicValue)
  | [] => (w, [])
  | c :: rest =>
    let r := c.exec w
    let t := runCalls r.1 rest
    (t.1, r.2 :: t.2)

/-- The calls `Register(n1, m1)`, ..., `Register(nk, mk)`. -/
def registerCalls {M : Type} (l : List (String × M)) : List (Call M) :=
  l.map (fun p => Call.register p.1 p.2)

/-- Whether the call is `Register(n, _)` and returned normally. -/
def registeredOk {M : Type} (n : String) (c : Call M) (o : Option PanicValue) : Bool :=
  match c with
  | Call.register name _ => decide (name = n) && o.isNone
  | Call.getJSModules => false

/-- Number of calls `Register(n, _)` that return normally when the calls are
run one after the other from `w`. -/
def successCount {M : Type} (n : String) (w : Mem M) (cs : List (Call M)) : Nat :=
  ((cs.zip (runCalls w cs).2).filter (fun p => registeredOk n p.1 p.2)).length

/-! ## Threads of control

`Register` and `GetJSModules` as programs run by concurrent threads that share
the memory and the lock `var mx sync.RWMutex`.  A thread executes one
statement per step (two for the map write); `mx.Lock()` can only be executed
while the lock is free,
so a thread waiting for the lock has no step.  An interleaving is a list of
thread indices: the order in which the threads take their steps.

A Go map is not safe for concurrent use: the write `modules[name] = mod` is
not one indivisible action.  It is two steps here, one that takes the table of
the map and one that puts back that table with the entry added, so that two
writes running at the same time can lose an entry
(`lost_update_without_exclusion`).  Only the lock keeps the writes apart. -/

/-- Go `sync.RWMutex`: held by one writer (`Lock`), or by a number of readers
(`RLock`), or free. -/
structure RWMutex where
  writer : Bool
  readers : Nat
  deriving DecidableEq

/-- The zero value of `sync.RWMutex`: an unlocked mutex. -/
def RWMutex.free : RWMutex := { writer := false, readers := 0 }

/-- Go `mx.Lock()`: locks for writing; `none` while the lock is held for
reading or writing (the caller blocks). -/
def RWMutex.Lock (mx : RWMutex) : Option RWMutex :=
  if mx.writer = false ∧ mx.readers = 0 then some { mx with writer := true } else none

/-- Go `mx.Unlock()`: unlocks for writing. -/
def RWMutex.Unlock (mx : RWMutex) : RWMutex := { mx with writer := false }

/-- Go `mx.RLock()`: locks for reading; `none` while the lock is held for
writing (the caller blocks).  No function of the package calls it. -/
def RWMutex.RLock (mx : RWMutex) : Option RWMutex :=
  if mx.writer = false then some { mx with readers := mx.readers + 1 } else none

/-- Go `mx.RUnlock()`: undoes one `RLock`.  No function of the package calls
it. -/
def RWMutex.RUnlock (mx : RWMutex) : RWMutex := { mx with readers := mx.readers - 1 }

/-- Next statement of a thread running `Register(name, mod)`:
the prefix test (line 47), `mx.Lock()` (line 51), the lookup (line 54), the
write (line 57) in its two steps (taking the table of the map, then putting
back the table taken with the entry added), the deferred `mx.Unlock()`
(line 52) with the pending panic if any, and the end of the call with its panic
value if any. -/
inductive RegPc (M : Type) where
  | checkPrefix
  | lock
  | checkDup
  | writeLoad
  | writeStore (table : GoMap M)
  | unlock (p : Option PanicValue)
  | done (p : Option PanicValue)

/-- Next statement of a thread running `GetJSModules()`: `mx.Lock()`
(line 69), `make` and the copy loop (lines 71-75), the deferred `mx.Unlock()`
(line 70) with the value to return, and the end of the call with the value
returned. -/
inductive GetPc where
  | lock
  | copy
  | unlock (result : Ref)
  | done (result : Ref)
  deriving DecidableEq

/-- A thread of control inside one call of a function of the package. -/
inductive Thread (M : Type) where
  | register (name : String) (mod : M) (pc : RegPc M)
  | getJSModules (pc : GetPc)

/-- A thread at the entry of the called function. -/
def Thread.start {M : Type} : Call M → Thread M
  | Call.register name mod => Thread.register name mod RegPc.checkPrefix
  | Call.getJSModules => Thread.getJSModules GetPc.lock

/-- The call a thread is running. -/
def Thread.call {M : Type} : Thread M → Call M
  | Thread.register name mod _ => Call.register name mod
  | Thread.getJSModules _ => Call.getJSModules

/-- Whether the thread is between its `mx.Lock()` and its `mx.Unlock()`. -/
def Thread.holds {M : Type} : Thread M → Bool
  | Thread.register _ _ RegPc.checkDup => true
  | Thread.register _ _ RegPc.writeLoad => true
  | Thread.register _ _ (RegPc.writeStore _) => true
  | Thread.register _ _ (RegPc.unlock _) => true
  | Thread.register _ _ _ => false
  | Thread.getJSModules GetPc.copy => true
  | Thread.getJSModules (GetPc.unlock _) => true
  | Thread.getJSModules _ => false

/-- Whether the call of the thread has ended (returned or panicked). -/
def Thread.finished {M : Type} : Thread M → Bool
  | Thread.register _ _ (RegPc.done _) => true
  | Thread.getJSModules (GetPc.done _) => true
  | _ => false

/-- Whether the call of the thread has ended by returning normally. -/
def Thread.returned {M : Type} : Thread M → Bool
  | Thread.register _ _ (RegPc.done none) => true
  | Thread.getJSModules (GetPc.done _) => true
  | _ => false

/-- Number of steps a thread has yet to take on the path without panic. -/
def Thread.work {M : Type} : Thread M → Nat
  | Thread.register _ _ RegPc.checkPrefix => 6
  | Thread.register _ _ RegPc.lock => 5
  | Thread.register _ _ RegPc.checkDup => 4
  | Thread.register _ _ RegPc.writeLoad => 3
  | Thread.register _ _ (RegPc.writeStore _) => 2
  | Thread.register _ _ (RegPc.unlock _) => 1
  | Thread.register _ _ (RegPc.done _) => 0
  | Thread.getJSModules GetPc.lock => 3
  | Thread.getJSModules GetPc.copy => 2
  | Thread.getJSModules (GetPc.unlock _) => 1
  | Thread.getJSModules (GetPc.done _) => 0

/-- One step of a thread on the shared memory and lock: the statement at its
program counter.  `none` when the thread is blocked in `mx.Lock()` or its call
has ended. -/
def Thread.step {M : Type} (mem : Mem M) (mx : RWMutex) :
    Thread M → Option (Thread M × Mem M × RWMutex)
  | Thread.register name mod RegPc.checkPrefix =>
    if !HasPrefix name extPrefix then
      some (Thread.register name mod (RegPc.done (some (PanicValue.error (prefixMsg name)))),
        mem, mx)
    else
      some (Thread.register name mod RegPc.lock, mem, mx)
  | Thread.register name mod RegPc.lock =>
    match mx.Lock with
    | some mx1 => some (Thread.register name mod RegPc.checkDup, mem, mx1)
    | none => none
  | Thread.register name mod RegPc.checkDup =>
    match mem.modules.lookup name with
    | some _ =>
      some (Thread.register name mod (RegPc.unlock (some (PanicValue.str (duplicateMsg name)))),
        mem, mx)
    | none => some (Thread.register name mod RegPc.writeLoad, mem, mx)
  | Thread.register name mod RegPc.writeLoad =>
    some (Thread.register name mod (RegPc.writeStore mem.modules), mem, mx)
  | Thread.register name mod (RegPc.writeStore table) =>
    some (Thread.register name mod (RegPc.unlock none),
      { mem with modules := table.insert name mod }, mx)
  | Thread.register name mod (RegPc.unlock p) =>
    some (Thread.register name mod (RegPc.done p), mem, mx.Unlock)
  | Thread.register _ _ (RegPc.done _) => none
  | Thread.getJSModules GetPc.lock =>
    match mx.Lock with
    | some mx1 => some (Thread.getJSModules GetPc.copy, mem, mx1)
    | none => none
  | Thread.getJSModules GetPc.copy =>
    some (Thread.getJSModules (GetPc.unlock (GetJSModules mem).2), (GetJSModules mem).1, mx)
  | Thread.getJSModules (GetPc.unlock r) =>
    some (Thread.getJSModules (GetPc.done r), mem, mx.Unlock)
  | Thread.getJSModules (GetPc.done _) => none

/-- The package and the threads running its functions. -/
structure Sys (M : Type) where
  mem : Mem M
  mx : RWMutex
  threads : List (Thread M)

/-- One thread per call, each at the entry of its function, the lock free. -/
def Sys.spawn {M : Type} (w : Mem M) (cs : List (Call M)) : Sys M :=
  { mem := w, mx := RWMutex.free, threads := cs.map Thread.start }

/-- The thread of index `i` takes one step; `none` when there is no such
thread or it has no step. -/
def Sys.step {M : Type} (s : Sys M) (i : Nat) : Option (Sys M) :=
  match s.threads[i]? with
  | none => none
  | some t =>
    match t.step s.mem s.mx with
    | none => none
    | some r => some { mem := r.2.1, mx := r.2.2, threads := s.threads.set i r.1 }

/-- Runs an interleaving: the threads take their steps in the order listed.
`none` when the list asks a step of a thread that has none. -/
def Sys.run {M : Type} (s : Sys M) : List Nat → Option (Sys M)
  | [] => some s
  | i :: rest =>
    match s.step i with
    | none => none
    | some s1 => s1.run rest

/-- Steps yet to be taken by all the threads together. -/
def Sys.work {M : Type} (s : Sys M) : Nat := (s.threads.map Thread.work).sum

/-- Whether the thread runs `Register` and has executed the write
`modules[name] = mod`. -/
def Thread.written {M : Type} : Thread M → Bool
  | Thread.register _ _ (RegPc.unlock none) => true
  | Thread.register _ _ (RegPc.done none) => true
  | _ => false

/-- Whether the thread runs `Register` and has executed one of its two `panic`
statements. -/
def Thread.panicked {M : Type} : Thread M → Bool
  | Thread.register _ _ (RegPc.unlock (some _)) => true
  | Thread.register _ _ (RegPc.done (some _)) => true
  | _ => false

/-- Mutual exclusion: nobody holds the lock for reading; a thread is between
`mx.Lock()` and `mx.Unlock()` exactly when the lock is held for writing; and
there is at most one such thread. -/
structure MutexInv {M : Type} (s : Sys M) : Prop where
  readers : s.mx.readers = 0
  free : s.mx.writer = false → ∀ (i : Nat) (t : Thread M), s.threads[i]? = some t →
    t.holds = false
  held : s.mx.writer = true → ∃ (i : Nat) (t : Thread M), s.threads[i]? = some t ∧
    t.holds = true
  excl : ∀ (i j : Nat) (ti tj : Thread M), s.threads[i]? = some ti → s.threads[j]? = some tj →
    ti.holds = true → tj.holds = true → i = j

/-- State of the registry while `Register` calls with pairwise distinct,
prefixed names that are not keys of the initial `modules` (the map of `w`) are
running: `modules` holds its initial bindings and the bindings of the threads
that have executed their write, the table taken by a thread in the middle of
its write is still the table of `modules`, and no thread has panicked. -/
structure RegInv {M : Type} (w : Mem M) (s : Sys M) : Prop where
  distinct : ∀ (i j : Nat) (ti tj : Thread M) (n : String) (m mj : M),
    s.threads[i]? = some ti → s.threads[j]? = some tj →
    ti.call = Call.register n m → tj.call = Call.register n mj → i = j
  prefixed : ∀ (i : Nat) (t : Thread M) (n : String) (m : M), s.threads[i]? = some t →
    t.call = Call.register n m → HasPrefix n extPrefix = true
  fresh : ∀ (i : Nat) (t : Thread M) (n : String) (m : M), s.threads[i]? = some t →
    t.call = Call.register n m → w.modules.lookup n = none
  content : ∀ (k : String) (v : M), s.mem.modules.lookup k = some v ↔
    (w.modules.lookup k = some v ∨
      ∃ (i : Nat) (t : Thread M), s.threads[i]? = some t ∧ t.call = Call.register k v ∧
        t.written = true)
  table : ∀ (i : Nat) (n : String) (m : M) (tb : GoMap M),
    s.threads[i]? = some (Thread.register n m (RegPc.writeStore tb)) → tb = s.mem.modules
  nopanic : ∀ (i : Nat) (t : Thread M), s.threads[i]? = some t → t.panicked = false

/-! ## The interfaces -/

/-- Go `type VU interface`: a value of the interface as a module instance
observes it at one moment, that is the results of its four methods.
`Context()` returns a `context.Context`, `InitEnv()` a
`*common.InitEnvironment`, `State()` a `*lib.State` and `Runtime()` a
`*goja.Runtime`; `none` is `nil`.  The four types belong to other packages and
are parameters. -/
structure VU (C E S R : Type) where
  Context : Option C
  InitEnv : Option E
  State : Option S
  Runtime : Option R

/-- Whether exactly one of `InitEnv()` and `State()` is non-nil. -/
def VU.exactlyOne {C E S R : Type} (vu : VU C E S R) : Bool :=
  (vu.InitEnv.isSome && !vu.State.isSome) || (!vu.InitEnv.isSome && vu.State.isSome)

/-- Modelled from the spec: the execution context behind a `VU` accessor.  The
source has the interface `VU` only: no type implementing it, and no code that
builds or receives a `VU`.  The attributes are those of section 3 of the spec:
"a cancellation/deadline signal, an optional compile-time initialization
environment, an optional run-time state handle, and a handle to the underlying
script evaluator". -/
structure ExecContext (C E S R : Type) where
  signal : C
  environment : Option E
  state : Option S
  evaluator : R

/-- Modelled from the spec: a context as it is created, in its "setup/compile
phase" (section 4.4): the environment is present, and the run-time state,
"absent during compile phase", is not. -/
def ExecContext.create {C E S R : Type} (signal : C) (env : E) (evaluator : R) :
    ExecContext C E S R :=
  { signal := signal, environment := some env, state := none, evaluator := evaluator }

/-- Modelled from the spec: the context enters run phase with the state `st`
(section 4.4): the state is "present only once the context has entered run
phase", the environment is "absent (must be checked) once the context has
entered run phase". -/
def ExecContext.enterRun {C E S R : Type} (ctx : ExecContext C E S R) (st : S) :
    ExecContext C E S R :=
  { ctx with environment := none, state := some st }

/-- Modelled from the spec: the context at a moment of its life: created in
compile phase, then entered into run phase with each of the states `runs`, in
order (none while it is still in compile phase). -/
def ExecContext.life {C E S R : Type} (signal : C) (env : E) (evaluator : R) (runs : List S) :
    ExecContext C E S R :=
  runs.foldl ExecContext.enterRun (ExecContext.create signal env evaluator)

/-- Modelled from the spec: the accessor a module is given for a context, the
"four read accessors" of section 4.4 as a value of the interface `VU`: the
signal and the evaluator handle ("always available while the context exists")
are populated, `InitEnv()` and `State()` return the two optional attributes. -/
def ExecContext.accessor {C E S R : Type} (ctx : ExecContext C E S R) : VU C E S R :=
  { Context := some ctx.signal, InitEnv := ctx.environment, State := ctx.state,
    Runtime := some ctx.evaluator }

/-- A Go interface type as package `reflect` presents it: the names of the
methods it declares. -/
structure InterfaceType where
  methods : List String

/-- Go `type Instance interface { Exports() Exports }`. -/
def Instance : InterfaceType := { methods := ["Exports"] }

/-- Go `T.NumMethod()` of `reflect.Type` for an interface type: the number of
methods of the interface. -/
def InterfaceType.NumMethod (T : InterfaceType) : Nat := T.methods.length

/-- Go `T.Method(i).Name` of `reflect.Type` for an interface type: the name of
the `i`-th method, the methods being sorted in lexicographic order (names are
compared as sequences of characters); `none` when `i` is out of range (the
call panics). -/
def InterfaceType.MethodName (T : InterfaceType) (i : Nat) : Option String :=
  (T.methods.insertionSort (fun a b => a.data ≤ b.data))[i]?

/-- Go `func getInterfaceMethods() []string`: `T` is the type `Instance`
(`reflect.TypeOf(&t).Elem()` for `var t Instance`), `result` is
`make([]string, T.NumMethod())`, and the loop sets `result[i]` to
`T.Method(i).Name` for every index `i` of `result`.  `none` if a statement
panics. -/
def getInterfaceMethods : Option (List String) :=
  let T := Instance
  let result := List.replicate T.NumMethod ""
  (List.range result.length).foldlM
    (fun acc i => (T.MethodName i).map (fun name => acc.set i name)) result

/-! ## Lemmas: `Register` -/

section lemmas

variable {M : Type}

theorem hasPrefix_length_le {s pfx : String} (h : HasPrefix s pfx = true) :
    pfx.length ≤ s.length := by
  unfold HasPrefix at h
  simp only [Bool.and_eq_true, decide_eq_true_eq] at h
  exact h.1

theorem hasPrefix_self (pfx : String) : HasPrefix pfx pfx = true := by
  have h : pfx.data.take pfx.length = pfx.data := List.take_length pfx.data
  simp only [HasPrefix, h, le_refl, decide_True, beq_self_eq_true, Bool.and_self]

theorem register_not_prefixed {w : Mem M} {n : String} (m : M)
    (h : HasPrefix n extPrefix = false) :
    Register w n m = (w, some (PanicValue.error (prefixMsg n))) := by
  simp [Register, h]

theorem register_duplicate {w : Mem M} {n : String} {m0 : M} (m : M)
    (hp : HasPrefix n extPrefix = true) (h : w.modules.lookup n = some m0) :
    Register w n m = (w, some (PanicValue.str (duplicateMsg n))) := by
  simp [Register, hp, h]

theorem register_fresh {w : Mem M} {n : String} (m : M)
    (hp : HasPrefix n extPrefix = true) (h : w.modules.lookup n = none) :
    Register w n m = ({ w with modules := w.modules.insert n m }, none) := by
  simp [Register, hp, h, Mem.store, Mem.update]

/-- A call of `Register` that panics leaves the memory as it was. -/
theorem register_panic_mem (w : Mem M) (n : String) (m : M)
    (h : (Register w n m).2 ≠ none) : (Register w n m).1 = w := by
  cases hp : HasPrefix n extPrefix
  · rw [register_not_prefixed m hp]
  · cases hl : w.modules.lookup n with
    | none => exact absurd (by rw [register_fresh m hp hl]) h
    | some m0 => rw [register_duplicate m hp hl]

/-- A call of `Register` never touches the allocated map objects. -/
theorem register_heap (w : Mem M) (n : String) (m : M) :
    (Register w n m).1.heap = w.heap := by
  unfold Register
  split
  · rfl
  · split <;> rfl

/-- The outcome of `Register` as a function of the two checks. -/
theorem register_ok_iff (w : Mem M) (n : String) (m : M) :
    (Register w n m).2 = none ↔
      HasPrefix n extPrefix = true ∧ w.modules.lookup n = none := by
  cases hp : HasPrefix n extPrefix
  · simp [register_not_prefixed m hp]
  · cases hl : w.modules.lookup n with
    | none => simp [register_fresh m hp hl]
    | some m0 => simp [register_duplicate m hp hl]

/-! ## Lemmas: memory and `GetJSModules` -/

theorem store_obj {w : Mem M} {a : Nat} {mp : GoMap M} (k : String) (v : M)
    (h : w.heap[a]? = some mp) :
    w.store (Ref.obj a) k v = { w with heap := w.heap.set a (mp.insert k v) } := by
  simp [Mem.store, Mem.update, h]

theorem delete_obj {w : Mem M} {a : Nat} {mp : GoMap M} (k : String)
    (h : w.heap[a]? = some mp) :
    w.delete (Ref.obj a) k = { w with heap := w.heap.set a (mp.erase k) } := by
  simp [Mem.delete, Mem.update, h]

theorem set_same {α : Type} {l : List α} {a : Nat} {x : α} (h : l[a]? = some x) :
    l.set a x = l := by
  apply List.ext_getElem?
  intro i
  by_cases hi : a = i
  · subst hi
    rw [List.getElem?_set_self (List.getElem?_eq_some.1 h).1, h]
  · rw [List.getElem?_set_ne hi]

/-- The copy loop writes only the object behind `result`: afterwards that
object holds its former entries overwritten with the entries of `src`. -/
theorem copyLoop_obj (src : List (Sigma fun _ : String => M)) :
    ∀ (w : Mem M) (a : Nat) (mp : GoMap M), w.heap[a]? = some mp →
      copyLoop w (Ref.obj a) src =
        { w with heap := w.heap.set a (src.foldl (fun acc e => acc.insert e.1 e.2) mp) } := by
  induction src with
  | nil =>
    intro w a mp h
    simp [copyLoop, set_same h]
  | cons e t ih =>
    intro w a mp h
    have hlt : a < w.heap.length := (List.getElem?_eq_some.1 h).1
    have h2 : (w.store (Ref.obj a) e.1 e.2).heap[a]? = some (mp.insert e.1 e.2) := by
      rw [store_obj e.1 e.2 h]
      exact List.getElem?_set_self hlt
    have step := ih (w.store (Ref.obj a) e.1 e.2) a (mp.insert e.1 e.2) h2
    simp only [copyLoop, List.foldl_cons] at step ⊢
    rw [step, store_obj e.1 e.2 h]
    simp [List.set_set]

/-- Lookup in a map built by inserting the entries of a list with distinct
keys over `acc`. -/
theorem lookup_foldl_insert (k : String) :
    ∀ (src : List (Sigma fun _ : String => M)) (acc : GoMap M), src.NodupKeys →
      (src.foldl (fun acc e => acc.insert e.1 e.2) acc).lookup k =
        (src.dlookup k).orElse (fun _ => acc.lookup k) := by
  intro src
  induction src with
  | nil => intro acc _; simp
  | cons e t ih =>
    intro acc nd
    obtain ⟨hk, ndt⟩ := List.nodupKeys_cons.1 nd
    rw [List.foldl_cons, ih _ ndt]
    by_cases h : k = e.1
    · subst h
      have : t.dlookup e.1 = none := List.dlookup_eq_none.2 hk
      obtain ⟨e1, e2⟩ := e
      simp [this, AList.lookup_insert]
    · rw [List.dlookup_cons_ne _ _ h, AList.lookup_insert_ne h]

theorem getJSModules_ref (w : Mem M) : (GetJSModules w).2 = Ref.obj w.heap.length := rfl

/-- The memory after `GetJSModules()`: the map of `modules` is as before, the
objects allocated before are as before, and one object was added. -/
theorem getJSModules_mem (w : Mem M) :
    (GetJSModules w).1 =
      { modules := w.modules,
        heap := w.heap ++
          [w.modules.entries.foldl (fun acc e => acc.insert e.1 e.2) (∅ : GoMap M)] } := by
  have h : (w.make).1.heap[w.heap.length]? = some (∅ : GoMap M) := by
    simp [Mem.make]
  have := copyLoop_obj w.modules.entries (w.make).1 w.heap.length ∅ h
  simp only [GetJSModules, Mem.make] at this ⊢
  rw [this]
  simp

theorem getJSModules_modules (w : Mem M) : (GetJSModules w).1.modules = w.modules := by
  rw [getJSModules_mem]

/-- The map returned by `GetJSModules()` holds the mapping of `modules`. -/
theorem listed_same (w : Mem M) : ∃ mp, listed w = some mp ∧ SameMapping mp w.modules := by
  refine ⟨w.modules.entries.foldl (fun acc e => acc.insert e.1 e.2) (∅ : GoMap M), ?_, ?_⟩
  · unfold listed
    rw [getJSModules_ref, getJSModules_mem]
    simp [Mem.load]
  · intro k
    rw [lookup_foldl_insert k _ _ w.modules.nodupKeys]
    simp [AList.lookup]

/-- Mutations through the reference of an allocated object rewrite that object
and nothing else. -/
theorem mutate_obj (muts : List (Mutation M)) :
    ∀ (w : Mem M) (a : Nat) (mp : GoMap M), w.heap[a]? = some mp →
      mutate w (Ref.obj a) muts =
        { w with heap := w.heap.set a (muts.foldl Mutation.apply mp) } := by
  induction muts with
  | nil =>
    intro w a mp h
    simp [mutate, set_same h]
  | cons μ rest ih =>
    intro w a mp h
    have hlt : a < w.heap.length := (List.getElem?_eq_some.1 h).1
    cases μ with
    | set k v =>
      have h2 : (w.store (Ref.obj a) k v).heap[a]? = some (mp.insert k v) := by
        rw [store_obj k v h]
        exact List.getElem?_set_self hlt
      rw [mutate, ih _ a _ h2, store_obj k v h]
      simp [List.set_set, Mutation.apply]
    | del k =>
      have h2 : (w.delete (Ref.obj a) k).heap[a]? = some (mp.erase k) := by
        rw [delete_obj k h]
        exact List.getElem?_set_self hlt
      rw [mutate, ih _ a _ h2, delete_obj k h]
      simp [List.set_set, Mutation.apply]

/-- Mutations through the reference of `modules` itself would rewrite the
registry: the memory model does distinguish a live reference from a copy. -/
theorem mutate_pkg_set (w : Mem M) (k : String) (v : M) :
    (mutate w Ref.pkg [Mutation.set k v]).modules.lookup k = some v := by
  simp [mutate, Mem.store, Mem.update, AList.lookup_insert]

/-- Maps holding the same mapping have the same entries, up to their order. -/
theorem SameMapping.perm {a b : GoMap M} (h : SameMapping a b) : a.entries.Perm b.entries := by
  apply List.lookup_ext a.nodupKeys b.nodupKeys
  intro k v
  have := h k
  simp only [AList.lookup] at this
  rw [this]

theorem SameMapping.mem_iff {a b : GoMap M} (h : SameMapping a b) (k : String) :
    k ∈ a ↔ k ∈ b := by
  rw [← AList.lookup_isSome, ← AList.lookup_isSome, h k]

/-! ## Lemmas: sequences of calls -/

theorem runCalls_cons (w : Mem M) (c : Call M) (rest : List (Call M)) :
    runCalls w (c :: rest) =
      ((runCalls (c.exec w).1 rest).1, (c.exec w).2 :: (runCalls (c.exec w).1 rest).2) := rfl

theorem runCalls_length (cs : List (Call M)) :
    ∀ w : Mem M, (runCalls w cs).2.length = cs.length := by
  induction cs with
  | nil => intro w; rfl
  | cons c rest ih => intro w; simp [runCalls_cons, ih]

/-- No call removes or changes a binding of `modules`. -/
theorem exec_lookup_some {w : Mem M} {n : String} {m : M} (c : Call M)
    (h : w.modules.lookup n = some m) : (c.exec w).1.modules.lookup n = some m := by
  cases c with
  | getJSModules =>
    simp only [Call.exec]
    rw [getJSModules_modules]
    exact h
  | register name mod =>
    simp only [Call.exec]
    by_cases hok : (Register w name mod).2 = none
    · obtain ⟨hp, hl⟩ := (register_ok_iff w name mod).1 hok
      rw [register_fresh mod hp hl]
      have hne : n ≠ name := by
        intro e
        rw [e, hl] at h
        exact Option.noConfusion h
      simpa [AList.lookup_insert_ne hne] using h
    · rw [register_panic_mem w name mod hok]
      exact h

theorem runCalls_lookup_some {n : String} {m : M} (cs : List (Call M)) :
    ∀ w : Mem M, w.modules.lookup n = some m → (runCalls w cs).1.modules.lookup n = some m := by
  induction cs with
  | nil => intro w h; exact h
  | cons c rest ih =>
    intro w h
    rw [runCalls_cons]
    exact ih _ (exec_lookup_some c h)

theorem lookup_insert_eq_some {mp : GoMap M} {n k : String} {m v : M}
    (hn : mp.lookup n = none) :
    (mp.insert n m).lookup k = some v ↔ ((k, v) = (n, m) ∨ mp.lookup k = some v) := by
  by_cases hk : k = n
  · subst hk
    rw [AList.lookup_insert, hn]
    simp [eq_comm]
  · rw [AList.lookup_insert_ne hk]
    simp [hk]

/-- After a run of `Register` calls that all return normally, `modules` holds
its former bindings and the bindings registered, and nothing else. -/
theorem runCalls_register_lookup :
    ∀ (l : List (String × M)) (w : Mem M),
      (∀ o ∈ (runCalls w (registerCalls l)).2, o = none) →
      ∀ (k : String) (v : M),
        (runCalls w (registerCalls l)).1.modules.lookup k = some v ↔
          ((k, v) ∈ l ∨ w.modules.lookup k = some v) := by
  intro l
  induction l with
  | nil => intro w _ k v; simp [registerCalls, runCalls]
  | cons p t ih =>
    intro w hok k v
    obtain ⟨n, m⟩ := p
    simp only [registerCalls, List.map_cons, runCalls_cons, Call.exec, List.mem_cons,
      forall_eq_or_imp] at hok ⊢
    obtain ⟨hp, hl⟩ := (register_ok_iff w n m).1 hok.1
    have := ih (Register w n m).1 hok.2 k v
    simp only [registerCalls] at this
    rw [this, register_fresh m hp hl]
    simp only [lookup_insert_eq_some hl]
    tauto

/-- A run of `Register` calls that all return normally adds one entry per
call. -/
theorem runCalls_register_length :
    ∀ (l : List (String × M)) (w : Mem M),
      (∀ o ∈ (runCalls w (registerCalls l)).2, o = none) →
      (runCalls w (registerCalls l)).1.modules.entries.length =
        w.modules.entries.length + l.length := by
  intro l
  induction l with
  | nil => intro w _; simp [registerCalls, runCalls]
  | cons p t ih =>
    intro w hok
    obtain ⟨n, m⟩ := p
    simp only [registerCalls, List.map_cons, runCalls_cons, Call.exec, List.mem_cons,
      forall_eq_or_imp] at hok ⊢
    obtain ⟨hp, hl⟩ := (register_ok_iff w n m).1 hok.1
    have := ih (Register w n m).1 hok.2
    simp only [registerCalls] at this
    rw [this, register_fresh m hp hl]
    simp only [AList.insert_entries_of_neg (AList.lookup_eq_none.1 hl), List.length_cons]
    omega

theorem successCount_cons (n : String) (w : Mem M) (c : Call M) (rest : List (Call M)) :
    successCount n w (c :: rest) =
      (if registeredOk n c (c.exec w).2 = true then 1 else 0) +
        successCount n (c.exec w).1 rest := by
  unfold successCount
  rw [runCalls_cons, List.zip_cons_cons, List.filter_cons]
  split <;> simp
  omega

/-- Once a name is bound, no later `Register` call for it returns normally. -/
theorem successCount_bound {n : String} {m : M} (cs : List (Call M)) :
    ∀ w : Mem M, w.modules.lookup n = some m → successCount n w cs = 0 := by
  induction cs with
  | nil => intro w _; rfl
  | cons c rest ih =>
    intro w h
    rw [successCount_cons, ih _ (exec_lookup_some c h)]
    cases c with
    | getJSModules => simp [registeredOk]
    | register name mod =>
      by_cases e : name = n
      · subst e
        have : (Register w name mod).2 ≠ none := by
          rw [Ne, register_ok_iff, h]
          simp
        cases hr : (Register w name mod).2 with
        | none => exact absurd hr this
        | some v => simp [registeredOk, Call.exec, hr]
      · simp [registeredOk, e]

theorem successCount_le_one (n : String) (cs : List (Call M)) :
    ∀ w : Mem M, successCount n w cs ≤ 1 := by
  induction cs with
  | nil => intro w; simp [successCount]
  | cons c rest ih =>
    intro w
    rw [successCount_cons]
    split
    · rename_i hok
      cases c with
      | getJSModules => simp [registeredOk] at hok
      | register name mod =>
        simp only [registeredOk, Call.exec, Bool.and_eq_true, decide_eq_true_eq,
          Option.isNone_iff_eq_none] at hok
        obtain ⟨e, hnone⟩ := hok
        subst e
        obtain ⟨hp, hl⟩ := (register_ok_iff w name mod).1 hnone
        have hb : (Call.exec w (Call.register name mod)).1.modules.lookup name = some mod := by
          simp only [Call.exec]
          rw [register_fresh mod hp hl]
          exact AList.lookup_insert _
        rw [successCount_bound rest _ hb]
    · have := ih (c.exec w).1
      omega

/-- Every call keeps the names of `modules` prefixed. -/
theorem exec_prefixed {w : Mem M} (c : Call M)
    (h : ∀ k : String, k ∈ w.modules → HasPrefix k extPrefix = true) :
    ∀ k : String, k ∈ (c.exec w).1.modules → HasPrefix k extPrefix = true := by
  cases c with
  | getJSModules =>
    simp only [Call.exec]
    rw [getJSModules_modules]
    exact h
  | register name mod =>
    simp only [Call.exec]
    by_cases hok : (Register w name mod).2 = none
    · obtain ⟨hp, hl⟩ := (register_ok_iff w name mod).1 hok
      rw [register_fresh mod hp hl]
      intro k hk
      rcases (AList.mem_insert _).1 hk with e | hk
      · rw [e]; exact hp
      · exact h k hk
    · rw [register_panic_mem w name mod hok]
      exact h

theorem runCalls_prefixed (cs : List (Call M)) :
    ∀ w : Mem M, (∀ k : String, k ∈ w.modules → HasPrefix k extPrefix = true) →
      ∀ k : String, k ∈ (runCalls w cs).1.modules → HasPrefix k extPrefix = true := by
  induction cs with
  | nil => intro w h; exact h
  | cons c rest ih =>
    intro w h
    rw [runCalls_cons]
    exact ih _ (exec_prefixed c h)

/-- `Register` calls with pairwise distinct, prefixed, unregistered names all
return normally. -/
theorem runCalls_register_ok :
    ∀ (l : List (String × M)) (w : Mem M), (l.map Prod.fst).Nodup →
      (∀ p ∈ l, HasPrefix p.1 extPrefix = true) →
      (∀ p ∈ l, w.modules.lookup p.1 = none) →
      (runCalls w (registerCalls l)).2 = List.replicate l.length none := by
  intro l
  induction l with
  | nil => intro w _ _ _; rfl
  | cons p t ih =>
    intro w hnd hpre hfresh
    obtain ⟨n, m⟩ := p
    simp only [List.map_cons, List.nodup_cons, List.mem_map, Prod.exists, exists_and_right,
      exists_eq_right, not_exists] at hnd
    have hp : HasPrefix n extPrefix = true := hpre (n, m) (List.mem_cons_self _ _)
    have hl : w.modules.lookup n = none := hfresh (n, m) (List.mem_cons_self _ _)
    have hrest := ih (Register w n m).1 hnd.2
      (fun q hq => hpre q (List.mem_cons_of_mem _ hq))
      (fun q hq => by
        rw [register_fresh m hp hl]
        have hne : q.1 ≠ n := by
          intro e
          exact hnd.1 q.2 (by rw [← e]; exact hq)
        simp only [AList.lookup_insert_ne hne]
        exact hfresh q (List.mem_cons_of_mem _ hq))
    simp only [registerCalls, List.map_cons, runCalls_cons, Call.exec, List.length_cons,
      List.replicate_succ] at hrest ⊢
    rw [hrest, (register_ok_iff w n m).2 ⟨hp, hl⟩]

/-! ## Lemmas: one step of a thread -/

/-- A step does not change the call the thread is running. -/
theorem thread_step_call {mem : Mem M} {mx : RWMutex} {t : Thread M}
    {r : Thread M × Mem M × RWMutex} (h : t.step mem mx = some r) : r.1.call = t.call := by
  cases t with
  | register name mod pc =>
    cases pc <;> simp only [Thread.step] at h
    · split at h <;> simp at h <;> subst h <;> rfl
    · split at h <;> simp at h; subst h; rfl
    · split at h <;> simp at h <;> subst h <;> rfl
    · simp at h; subst h; rfl
    · simp at h; subst h; rfl
    · simp at h; subst h; rfl
    · simp at h
  | getJSModules pc =>
    cases pc <;> simp only [Thread.step] at h
    · split at h <;> simp at h; subst h; rfl
    · simp at h; subst h; rfl
    · simp at h; subst h; rfl
    · simp at h

theorem lock_eq_some {mx mx1 : RWMutex} (h : mx.Lock = some mx1) :
    mx.writer = false ∧ mx.readers = 0 ∧ mx1.writer = true ∧ mx1.readers = 0 := by
  unfold RWMutex.Lock at h
  split at h
  · rename_i hc
    simp at h
    subst h
    exact ⟨hc.1, hc.2, rfl, hc.2⟩
  · simp at h

/-- What a step does to the lock: nothing, and the thread stays inside or
outside its critical section; or the thread acquires the free lock and enters;
or the thread releases the lock and leaves. -/
theorem thread_step_lock {mem : Mem M} {mx : RWMutex} {t : Thread M}
    {r : Thread M × Mem M × RWMutex} (h : t.step mem mx = some r) :
    (r.1.holds = t.holds ∧ r.2.2 = mx) ∨
    (t.holds = false ∧ r.1.holds = true ∧ mx.writer = false ∧ mx.readers = 0 ∧
      r.2.2.writer = true ∧ r.2.2.readers = 0) ∨
    (t.holds = true ∧ r.1.holds = false ∧ r.2.2 = mx.Unlock) := by
  cases t with
  | register name mod pc =>
    cases pc <;> simp only [Thread.step] at h
    · split at h <;> simp at h <;> subst h <;> exact Or.inl ⟨rfl, rfl⟩
    · split at h <;> simp at h
      rename_i mx1 hl
      subst h
      obtain ⟨a, b, c, d⟩ := lock_eq_some hl
      exact Or.inr (Or.inl ⟨rfl, rfl, a, b, c, d⟩)
    · split at h <;> simp at h <;> subst h <;> exact Or.inl ⟨rfl, rfl⟩
    · simp at h; subst h; exact Or.inl ⟨rfl, rfl⟩
    · simp at h; subst h; exact Or.inl ⟨rfl, rfl⟩
    · simp at h; subst h; exact Or.inr (Or.inr ⟨rfl, rfl, rfl⟩)
    · simp at h
  | getJSModules pc =>
    cases pc <;> simp only [Thread.step] at h
    · split at h <;> simp at h
      rename_i mx1 hl
      subst h
      obtain ⟨a, b, c, d⟩ := lock_eq_some hl
      exact Or.inr (Or.inl ⟨rfl, rfl, a, b, c, d⟩)
    · simp at h; subst h; exact Or.inl ⟨rfl, rfl⟩
    · simp at h; subst h; exact Or.inr (Or.inr ⟨rfl, rfl, rfl⟩)
    · simp at h

/-- What a step does to `modules`: nothing, or it is the second step of the
write of a `Register` thread, which puts back the table the thread took with
its entry added. -/
theorem thread_step_modules {mem : Mem M} {mx : RWMutex} {t : Thread M}
    {r : Thread M × Mem M × RWMutex} (h : t.step mem mx = some r) :
    (r.2.1.modules = mem.modules ∧ r.1.written = t.written) ∨
    (∃ (n : String) (m : M) (tb : GoMap M),
      t = Thread.register n m (RegPc.writeStore tb) ∧
      r.1.written = true ∧ r.2.1.modules = tb.insert n m) := by
  cases t with
  | register name mod pc =>
    cases pc <;> simp only [Thread.step] at h
    · split at h <;> simp at h <;> subst h <;> exact Or.inl ⟨rfl, rfl⟩
    · split at h <;> simp at h; subst h; exact Or.inl ⟨rfl, rfl⟩
    · split at h <;> simp at h <;> subst h <;> exact Or.inl ⟨rfl, rfl⟩
    · simp at h; subst h; exact Or.inl ⟨rfl, rfl⟩
    · rename_i tb
      simp at h; subst h; exact Or.inr ⟨name, mod, tb, rfl, rfl, rfl⟩
    · rename_i p
      simp at h; subst h
      cases p <;> exact Or.inl ⟨rfl, rfl⟩
    · simp at h
  | getJSModules pc =>
    cases pc <;> simp only [Thread.step] at h
    · split at h <;> simp at h; subst h; exact Or.inl ⟨rfl, rfl⟩
    · simp at h; subst h; exact Or.inl ⟨getJSModules_modules mem, rfl⟩
    · simp at h; subst h; exact Or.inl ⟨rfl, rfl⟩
    · simp at h

/-- A thread is in the middle of its write only after the first step of the
write: the table it holds is the table `modules` had at that step. -/
theorem thread_step_table {mem : Mem M} {mx : RWMutex} {t : Thread M}
    {r : Thread M × Mem M × RWMutex} (h : t.step mem mx = some r)
    {n : String} {m : M} {tb : GoMap M}
    (hr : r.1 = Thread.register n m (RegPc.writeStore tb)) :
    tb = mem.modules ∧ r.2.1.modules = mem.modules := by
  cases t with
  | register name mod pc =>
    cases pc <;> simp only [Thread.step] at h
    · split at h <;> simp at h <;> subst h <;> simp at hr
    · split at h <;> simp at h; subst h; simp at hr
    · split at h <;> simp at h <;> subst h <;> simp at hr
    · simp at h; subst h
      simp only [Thread.register.injEq, RegPc.writeStore.injEq] at hr
      exact ⟨hr.2.2.symm, rfl⟩
    · simp at h; subst h; simp at hr
    · simp at h; subst h; simp at hr
    · simp at h
  | getJSModules pc =>
    cases pc <;> simp only [Thread.step] at h
    · split at h <;> simp at h; subst h; simp at hr
    · simp at h; subst h; simp at hr
    · simp at h; subst h; simp at hr
    · simp at h

/-- A step reaches a `panic` statement only from a thread that has not written,
on a name without the prefix or already bound. -/
theorem thread_step_panicked {mem : Mem M} {mx : RWMutex} {t : Thread M}
    {r : Thread M × Mem M × RWMutex} (h : t.step mem mx = some r)
    (hp : r.1.panicked = true) :
    t.panicked = true ∨
    ∃ (n : String) (m : M), t.call = Call.register n m ∧ t.written = false ∧
      (HasPrefix n extPrefix = false ∨ ∃ v : M, mem.modules.lookup n = some v) := by
  cases t with
  | register name mod pc =>
    cases pc <;> simp only [Thread.step] at h
    · split at h <;> simp at h <;> subst h
      · rename_i hc
        exact Or.inr ⟨name, mod, rfl, rfl, Or.inl (by simpa using hc)⟩
      · simp [Thread.panicked] at hp
    · split at h <;> simp at h; subst h; simp [Thread.panicked] at hp
    · split at h <;> simp at h <;> subst h
      · rename_i v hv
        exact Or.inr ⟨name, mod, rfl, rfl, Or.inr ⟨v, hv⟩⟩
      · simp [Thread.panicked] at hp
    · simp at h; subst h; simp [Thread.panicked] at hp
    · simp at h; subst h; simp [Thread.panicked] at hp
    · rename_i p
      simp at h; subst h
      cases p with
      | none => simp [Thread.panicked] at hp
      | some v => exact Or.inl rfl
    · simp at h
  | getJSModules pc =>
    cases pc <;> simp only [Thread.step] at h
    · split at h <;> simp at h; subst h; simp [Thread.panicked] at hp
    · simp at h; subst h; simp [Thread.panicked] at hp
    · simp at h; subst h; simp [Thread.panicked] at hp
    · simp at h

/-- A step that does not reach a `panic` statement is one step of the path
without panic. -/
theorem thread_step_work {mem : Mem M} {mx : RWMutex} {t : Thread M}
    {r : Thread M × Mem M × RWMutex} (h : t.step mem mx = some r)
    (hp : r.1.panicked = false) : r.1.work + 1 = t.work := by
  cases t with
  | register name mod pc =>
    cases pc <;> simp only [Thread.step] at h
    · split at h <;> simp at h <;> subst h
      · simp [Thread.panicked] at hp
      · rfl
    · split at h <;> simp at h; subst h; rfl
    · split at h <;> simp at h <;> subst h
      · simp [Thread.panicked] at hp
      · rfl
    · simp at h; subst h; rfl
    · simp at h; subst h; rfl
    · simp at h; subst h; rfl
    · simp at h
  | getJSModules pc =>
    cases pc <;> simp only [Thread.step] at h
    · split at h <;> simp at h; subst h; rfl
    · simp at h; subst h; rfl
    · simp at h; subst h; rfl
    · simp at h

/-- In general a step leaves the thread with fewer steps to take. -/
theorem thread_step_work_lt {mem : Mem M} {mx : RWMutex} {t : Thread M}
    {r : Thread M × Mem M × RWMutex} (h : t.step mem mx = some r) : r.1.work < t.work := by
  cases t with
  | register name mod pc =>
    cases pc <;> simp only [Thread.step] at h
    · split at h <;> simp at h <;> subst h <;> simp [Thread.work]
    · split at h <;> simp at h; subst h; simp [Thread.work]
    · split at h <;> simp at h <;> subst h <;> simp [Thread.work]
    · simp at h; subst h; simp [Thread.work]
    · simp at h; subst h; simp [Thread.work]
    · simp at h; subst h; simp [Thread.work]
    · simp at h
  | getJSModules pc =>
    cases pc <;> simp only [Thread.step] at h
    · split at h <;> simp at h; subst h; simp [Thread.work]
    · simp at h; subst h; simp [Thread.work]
    · simp at h; subst h; simp [Thread.work]
    · simp at h

/-- A thread whose call has not ended has a step when it holds the lock or the
lock is free. -/
theorem thread_step_enabled (mem : Mem M) (mx : RWMutex) (t : Thread M)
    (hf : t.finished = false)
    (hl : t.holds = true ∨ (mx.writer = false ∧ mx.readers = 0)) :
    (t.step mem mx).isSome = true := by
  cases t with
  | register name mod pc =>
    cases pc <;> simp only [Thread.step]
    · split <;> rfl
    · rcases hl with hl | hl
      · simp [Thread.holds] at hl
      · simp [RWMutex.Lock, hl]
    · split <;> rfl
    · rfl
    · rfl
    · rfl
    · simp [Thread.finished] at hf
  | getJSModules pc =>
    cases pc <;> simp only [Thread.step]
    · rcases hl with hl | hl
      · simp [Thread.holds] at hl
      · simp [RWMutex.Lock, hl]
    · rfl
    · rfl
    · simp [Thread.finished] at hf

/-! ## Lemmas: one step of the system -/

theorem sys_step_eq {s s1 : Sys M} {i : Nat} (h : s.step i = some s1) :
    ∃ (t : Thread M) (r : Thread M × Mem M × RWMutex),
      s.threads[i]? = some t ∧ t.step s.mem s.mx = some r ∧
      s1.mem = r.2.1 ∧ s1.mx = r.2.2 ∧ s1.threads = s.threads.set i r.1 := by
  unfold Sys.step at h
  split at h
  · simp at h
  · rename_i t ht
    split at h
    · simp at h
    · rename_i r hr
      simp at h
      subst h
      exact ⟨t, r, ht, hr, rfl, rfl, rfl⟩

theorem getElem?_set_iff {α : Type} {l : List α} {i j : Nat} {t t1 x : α}
    (h : l[i]? = some t) :
    (l.set i t1)[j]? = some x ↔ (j = i ∧ x = t1) ∨ (j ≠ i ∧ l[j]? = some x) := by
  have hlt : i < l.length := (List.getElem?_eq_some.1 h).1
  by_cases e : i = j
  · subst e
    rw [List.getElem?_set_self hlt]
    simp [eq_comm]
  · rw [List.getElem?_set_ne e]
    have e2 : j ≠ i := fun h => e h.symm
    simp [e2]

/-- Every step keeps mutual exclusion. -/
theorem mutexInv_step {s s1 : Sys M} {i : Nat} (inv : MutexInv s) (h : s.step i = some s1) :
    MutexInv s1 := by
  obtain ⟨t, r, ht, hr, hmem, hmx, hth⟩ := sys_step_eq h
  have old : ∀ (j : Nat) (x : Thread M), s1.threads[j]? = some x → x.holds = true →
      (j = i ∧ x = r.1) ∨ (j ≠ i ∧ s.threads[j]? = some x) := by
    intro j x hx _
    rw [hth] at hx
    exact (getElem?_set_iff ht).1 hx
  rcases thread_step_lock hr with ⟨hh, hm⟩ | ⟨h0, h1, hw, _, hw1, hr1⟩ | ⟨h1, h0, hm⟩
  · -- the lock is untouched and the thread stays where it was
    have back : ∀ (j : Nat) (x : Thread M), s1.threads[j]? = some x → x.holds = true →
        ∃ y, s.threads[j]? = some y ∧ y.holds = true := by
      intro j x hx hxh
      rcases old j x hx hxh with ⟨e, ex⟩ | ⟨_, hj⟩
      · exact ⟨t, by rw [e]; exact ht, by rw [← hh, ← ex]; exact hxh⟩
      · exact ⟨x, hj, hxh⟩
    refine ⟨by rw [hmx, hm]; exact inv.readers, ?_, ?_, ?_⟩
    · intro hw j x hx
      rw [hmx, hm] at hw
      cases hxh : x.holds
      · rfl
      · obtain ⟨y, hy, hyh⟩ := back j x hx hxh
        rw [inv.free hw j y hy] at hyh
        exact Bool.noConfusion hyh
    · intro hw
      rw [hmx, hm] at hw
      obtain ⟨j, y, hy, hyh⟩ := inv.held hw
      by_cases e : j = i
      · subst e
        have : y = t := Option.some.inj (hy.symm.trans ht)
        refine ⟨j, r.1, by rw [hth]; exact (getElem?_set_iff ht).2 (Or.inl ⟨rfl, rfl⟩), ?_⟩
        rw [hh, ← this]
        exact hyh
      · exact ⟨j, y, by rw [hth]; exact (getElem?_set_iff ht).2 (Or.inr ⟨e, hy⟩), hyh⟩
    · intro a b xa xb ha hb hah hbh
      obtain ⟨ya, hya, hyah⟩ := back a xa ha hah
      obtain ⟨yb, hyb, hybh⟩ := back b xb hb hbh
      exact inv.excl a b ya yb hya hyb hyah hybh
  · -- the thread acquires the lock
    have only : ∀ (j : Nat) (x : Thread M), s1.threads[j]? = some x → x.holds = true →
        j = i := by
      intro j x hx hxh
      rcases old j x hx hxh with ⟨e, _⟩ | ⟨_, hj⟩
      · exact e
      · rw [inv.free hw j x hj] at hxh
        exact Bool.noConfusion hxh
    refine ⟨by rw [hmx]; exact hr1, ?_, ?_, ?_⟩
    · intro hw0
      rw [hmx, hw1] at hw0
      exact Bool.noConfusion hw0
    · intro _
      exact ⟨i, r.1, by rw [hth]; exact (getElem?_set_iff ht).2 (Or.inl ⟨rfl, rfl⟩), h1⟩
    · intro a b xa xb ha hb hah hbh
      rw [only a xa ha hah, only b xb hb hbh]
  · -- the thread releases the lock
    have nobody : ∀ (j : Nat) (x : Thread M), s1.threads[j]? = some x → x.holds = false := by
      intro j x hx
      cases hxh : x.holds
      · rfl
      · rcases old j x hx hxh with ⟨_, ex⟩ | ⟨ne, hj⟩
        · rw [ex, h0] at hxh
          exact Bool.noConfusion hxh
        · exact absurd (inv.excl j i x t hj ht hxh h1) ne
    refine ⟨by rw [hmx, hm]; exact inv.readers, fun _ => nobody, ?_, ?_⟩
    · intro hw0
      rw [hmx, hm] at hw0
      exact Bool.noConfusion hw0
    · intro a b xa xb ha _ hah _
      rw [nobody a xa ha] at hah
      exact Bool.noConfusion hah

/-- A name a `Register` thread has yet to write is not bound in `modules`. -/
theorem regInv_unbound {w : Mem M} {s : Sys M} (inv : RegInv w s) {i : Nat} {t : Thread M}
    {n : String} {m : M} (ht : s.threads[i]? = some t) (hc : t.call = Call.register n m)
    (hw : t.written = false) : s.mem.modules.lookup n = none := by
  cases hl : s.mem.modules.lookup n with
  | none => rfl
  | some v =>
    rcases (inv.content n v).1 hl with h0 | ⟨j, y, hy, hyc, hyw⟩
    · rw [inv.fresh i t n m ht hc] at h0
      exact Option.noConfusion h0
    · have e : j = i := inv.distinct j i y t n v m hy ht hyc hc
      subst e
      have : y = t := Option.some.inj (hy.symm.trans ht)
      rw [this, hw] at hyw
      exact Bool.noConfusion hyw

/-- Every step keeps the state of the registry described by `RegInv`, given
mutual exclusion: a thread in the middle of its write holds the lock, so no
other thread writes `modules` under it. -/
theorem regInv_step {w : Mem M} {s s1 : Sys M} {i : Nat} (minv : MutexInv s)
    (inv : RegInv w s) (h : s.step i = some s1) : RegInv w s1 := by
  obtain ⟨t, r, ht, hr, hmem, hmx, hth⟩ := sys_step_eq h
  have hcall : r.1.call = t.call := thread_step_call hr
  have new_i : s1.threads[i]? = some r.1 := by
    rw [hth]; exact (getElem?_set_iff ht).2 (Or.inl ⟨rfl, rfl⟩)
  have new_ne : ∀ (j : Nat) (x : Thread M), j ≠ i → s.threads[j]? = some x →
      s1.threads[j]? = some x := by
    intro j x ne hx
    rw [hth]; exact (getElem?_set_iff ht).2 (Or.inr ⟨ne, hx⟩)
  have old : ∀ (j : Nat) (x : Thread M), s1.threads[j]? = some x →
      (j = i ∧ x = r.1) ∨ (j ≠ i ∧ s.threads[j]? = some x) := by
    intro j x hx
    rw [hth] at hx
    exact (getElem?_set_iff ht).1 hx
  have lift : ∀ (j : Nat) (x : Thread M), s1.threads[j]? = some x →
      ∃ y, s.threads[j]? = some y ∧ y.call = x.call := by
    intro j x hx
    rcases old j x hx with ⟨e, ex⟩ | ⟨_, hj⟩
    · exact ⟨t, by rw [e]; exact ht, by rw [ex, hcall]⟩
    · exact ⟨x, hj, rfl⟩
  refine ⟨?_, ?_, ?_, ?_, ?_, ?_⟩
  · intro a b xa xb n m mb ha hb hca hcb
    obtain ⟨ya, hya, eya⟩ := lift a xa ha
    obtain ⟨yb, hyb, eyb⟩ := lift b xb hb
    exact inv.distinct a b ya yb n m mb hya hyb (eya.trans hca) (eyb.trans hcb)
  · intro a x n m ha hc
    obtain ⟨y, hy, ey⟩ := lift a x ha
    exact inv.prefixed a y n m hy (ey.trans hc)
  · intro a x n m ha hc
    obtain ⟨y, hy, ey⟩ := lift a x ha
    exact inv.fresh a y n m hy (ey.trans hc)
  · intro k v
    rw [hmem]
    rcases thread_step_modules hr with ⟨hm, hwr⟩ | ⟨n, m, tb, et, hw1, hm⟩
    · rw [hm, inv.content k v]
      apply or_congr_right
      constructor
      · rintro ⟨j, y, hy, hyc, hyw⟩
        by_cases e : j = i
        · subst e
          have : y = t := Option.some.inj (hy.symm.trans ht)
          subst this
          exact ⟨j, r.1, new_i, hcall.trans hyc, hwr.trans hyw⟩
        · exact ⟨j, y, new_ne j y e hy, hyc, hyw⟩
      · rintro ⟨j, x, hx, hxc, hxw⟩
        rcases old j x hx with ⟨e, ex⟩ | ⟨_, hj⟩
        · subst e
          subst ex
          exact ⟨j, t, ht, hcall.symm.trans hxc, hwr.symm.trans hxw⟩
        · exact ⟨j, x, hj, hxc, hxw⟩
    · have hc : t.call = Call.register n m := by rw [et]; rfl
      have hw0 : t.written = false := by rw [et]; rfl
      have htb : tb = s.mem.modules := inv.table i n m tb (by rw [← et]; exact ht)
      rw [hm, htb, lookup_insert_eq_some (regInv_unbound inv ht hc hw0), inv.content k v]
      constructor
      · rintro (e | h0 | ⟨j, y, hy, hyc, hyw⟩)
        · refine Or.inr ⟨i, r.1, new_i, ?_, hw1⟩
          rw [hcall, hc]
          simp only [Prod.mk.injEq] at e
          rw [e.1, e.2]
        · exact Or.inl h0
        · have ne : j ≠ i := by
            intro e
            subst e
            have : y = t := Option.some.inj (hy.symm.trans ht)
            rw [this, hw0] at hyw
            exact Bool.noConfusion hyw
          exact Or.inr ⟨j, y, new_ne j y ne hy, hyc, hyw⟩
      · rintro (h0 | ⟨j, x, hx, hxc, hxw⟩)
        · exact Or.inr (Or.inl h0)
        · rcases old j x hx with ⟨e, ex⟩ | ⟨_, hj⟩
          · subst ex
            rw [hcall, hc] at hxc
            injection hxc with e1 e2
            exact Or.inl (by rw [e1, e2])
          · exact Or.inr (Or.inr ⟨j, x, hj, hxc, hxw⟩)
  · intro a n m tb ha
    rw [hmem]
    rcases old a _ ha with ⟨_, ex⟩ | ⟨ne, hj⟩
    · obtain ⟨e1, e2⟩ := thread_step_table hr ex.symm
      rw [e2]
      exact e1
    · have htb : tb = s.mem.modules := inv.table a n m tb hj
      rcases thread_step_modules hr with ⟨hm, _⟩ | ⟨n2, m2, tb2, et, _, _⟩
      · rw [hm]
        exact htb
      · have hi : t.holds = true := by rw [et]; rfl
        exact absurd (minv.excl a i _ t hj ht rfl hi) ne
  · intro a x ha
    rcases old a x ha with ⟨e, ex⟩ | ⟨_, hj⟩
    · cases hp : x.panicked
      · rfl
      · rw [ex] at hp
        rcases thread_step_panicked hr hp with htp | ⟨n, m, hc, hw0, hbad | ⟨v, hv⟩⟩
        · rw [inv.nopanic i t ht] at htp
          exact Bool.noConfusion htp
        · rw [inv.prefixed i t n m ht hc] at hbad
          exact Bool.noConfusion hbad
        · rw [regInv_unbound inv ht hc hw0] at hv
          exact Option.noConfusion hv
    · exact inv.nopanic a x hj

/-! ## Lemmas: interleavings -/

theorem nodup_getElem?_inj {α : Type} {l : List α} (nd : l.Nodup) {i j : Nat} {a : α}
    (hi : l[i]? = some a) (hj : l[j]? = some a) : i = j := by
  obtain ⟨hi1, hi2⟩ := List.getElem?_eq_some.1 hi
  obtain ⟨hj1, hj2⟩ := List.getElem?_eq_some.1 hj
  exact (@List.Nodup.getElem_inj_iff _ l nd i hi1 j hj1).1 (hi2.trans hj2.symm)

theorem spawn_getElem? {w : Mem M} {cs : List (Call M)} {i : Nat} {t : Thread M}
    (h : (Sys.spawn w cs).threads[i]? = some t) :
    ∃ c, cs[i]? = some c ∧ t = Thread.start c := by
  simp only [Sys.spawn, List.getElem?_map, Option.map_eq_some'] at h
  obtain ⟨c, hc, e⟩ := h
  exact ⟨c, hc, e.symm⟩

theorem start_call (c : Call M) : (Thread.start c).call = c := by
  cases c <;> rfl

theorem start_holds (c : Call M) : (Thread.start c).holds = false := by
  cases c <;> rfl

theorem start_written (c : Call M) : (Thread.start c).written = false := by
  cases c <;> rfl

theorem start_panicked (c : Call M) : (Thread.start c).panicked = false := by
  cases c <;> rfl

/-- Mutual exclusion holds when the threads are spawned. -/
theorem mutexInv_spawn (w : Mem M) (cs : List (Call M)) : MutexInv (Sys.spawn w cs) := by
  have none_holds : ∀ (i : Nat) (t : Thread M), (Sys.spawn w cs).threads[i]? = some t →
      t.holds = false := by
    intro i t h
    obtain ⟨c, _, e⟩ := spawn_getElem? h
    rw [e]
    exact start_holds c
  refine ⟨rfl, fun _ => none_holds, ?_, ?_⟩
  · intro hw
    exact Bool.noConfusion hw
  · intro i j ti tj hi _ hih _
    rw [none_holds i ti hi] at hih
    exact Bool.noConfusion hih

/-- The state of the registry when `Register` threads with pairwise distinct,
prefixed, unregistered names are spawned. -/
theorem regInv_spawn (w : Mem M) (l : List (String × M)) (hnd : (l.map Prod.fst).Nodup)
    (hpre : ∀ p ∈ l, HasPrefix p.1 extPrefix = true)
    (hfresh : ∀ p ∈ l, w.modules.lookup p.1 = none) :
    RegInv w (Sys.spawn w (registerCalls l)) := by
  have entry : ∀ (i : Nat) (t : Thread M) (n : String) (m : M),
      (Sys.spawn w (registerCalls l)).threads[i]? = some t → t.call = Call.register n m →
      l[i]? = some (n, m) ∧ t.written = false ∧ t.panicked = false := by
    intro i t n m h hc
    obtain ⟨c, hcs, e⟩ := spawn_getElem? h
    simp only [registerCalls, List.getElem?_map, Option.map_eq_some'] at hcs
    obtain ⟨p, hp, ep⟩ := hcs
    rw [e, start_call, ← ep] at hc
    injection hc with e1 e2
    refine ⟨?_, by rw [e]; exact start_written c, by rw [e]; exact start_panicked c⟩
    rw [hp, ← e1, ← e2]
  refine ⟨?_, ?_, ?_, ?_, ?_, ?_⟩
  · intro i j ti tj n m mj hi hj hci hcj
    have a := (entry i ti n m hi hci).1
    have b := (entry j tj n mj hj hcj).1
    apply nodup_getElem?_inj hnd (a := n)
    · rw [List.getElem?_map, a]; rfl
    · rw [List.getElem?_map, b]; rfl
  · intro i t n m hi hc
    exact hpre (n, m) (List.mem_iff_getElem?.2 ⟨i, (entry i t n m hi hc).1⟩)
  · intro i t n m hi hc
    exact hfresh (n, m) (List.mem_iff_getElem?.2 ⟨i, (entry i t n m hi hc).1⟩)
  · intro k v
    constructor
    · intro h
      exact Or.inl h
    · rintro (h | ⟨i, t, hi, hc, hw⟩)
      · exact h
      · rw [(entry i t k v hi hc).2.1] at hw
        exact Bool.noConfusion hw
  · intro i n m tb hi
    obtain ⟨c, _, e⟩ := spawn_getElem? hi
    cases c <;> simp [Thread.start] at e
  · intro i t hi
    obtain ⟨c, _, e⟩ := spawn_getElem? hi
    rw [e]
    exact start_panicked c

theorem run_cons (s : Sys M) (i : Nat) (rest : List Nat) :
    s.run (i :: rest) = (s.step i).bind (fun s1 => s1.run rest) := by
  simp only [Sys.run]
  cases s.step i <;> rfl

/-- A property kept by every step is kept by every interleaving. -/
theorem run_induction {P : Sys M → Prop}
    (hstep : ∀ (s s1 : Sys M) (i : Nat), P s → s.step i = some s1 → P s1) :
    ∀ (sched : List Nat) (s s1 : Sys M), P s → s.run sched = some s1 → P s1 := by
  intro sched
  induction sched with
  | nil =>
    intro s s1 hP h
    simp only [Sys.run, Option.some.injEq] at h
    rw [← h]
    exact hP
  | cons i rest ih =>
    intro s s1 hP h
    rw [run_cons] at h
    cases hs : s.step i with
    | none => rw [hs] at h; exact Option.noConfusion h
    | some s2 =>
      rw [hs] at h
      exact ih s2 s1 (hstep s s2 i hP hs) h

theorem mutexInv_run {s s1 : Sys M} {sched : List Nat} (inv : MutexInv s)
    (h : s.run sched = some s1) : MutexInv s1 :=
  run_induction (fun _ _ _ hP hs => mutexInv_step hP hs) sched s s1 inv h

theorem regInv_run {w : Mem M} {s s1 : Sys M} {sched : List Nat} (minv : MutexInv s)
    (inv : RegInv w s) (h : s.run sched = some s1) : RegInv w s1 :=
  (run_induction (P := fun x => MutexInv x ∧ RegInv w x)
    (fun _ _ _ hP hs => ⟨mutexInv_step hP.1 hs, regInv_step hP.1 hP.2 hs⟩)
    sched s s1 ⟨minv, inv⟩ h).2

/-- The threads keep running the calls they were spawned for. -/
theorem step_calls {s s1 : Sys M} {i : Nat} (h : s.step i = some s1) :
    s1.threads.map Thread.call = s.threads.map Thread.call := by
  obtain ⟨t, r, ht, hr, _, _, hth⟩ := sys_step_eq h
  rw [hth, List.map_set, thread_step_call hr]
  apply set_same
  rw [List.getElem?_map, ht]
  rfl

theorem run_calls {s s1 : Sys M} {sched : List Nat} (h : s.run sched = some s1) :
    s1.threads.map Thread.call = s.threads.map Thread.call :=
  run_induction (P := fun x => x.threads.map Thread.call = s.threads.map Thread.call)
    (fun _ _ _ hP hs => (step_calls hs).trans hP) sched s s1 rfl h

theorem spawn_calls (w : Mem M) (cs : List (Call M)) :
    (Sys.spawn w cs).threads.map Thread.call = cs := by
  simp only [Sys.spawn, List.map_map]
  conv_rhs => rw [← List.map_id cs]
  apply List.map_congr_left
  intro c _
  exact start_call c

theorem sum_map_set {α : Type} (f : α → Nat) :
    ∀ (l : List α) (i : Nat) (t t1 : α), l[i]? = some t →
      ((l.set i t1).map f).sum + f t = (l.map f).sum + f t1 := by
  intro l
  induction l with
  | nil => intro i t t1 h; simp at h
  | cons a rest ih =>
    intro i t t1 h
    cases i with
    | zero =>
      simp only [List.getElem?_cons_zero, Option.some.injEq] at h
      subst h
      simp only [List.set_cons_zero, List.map_cons, List.sum_cons]
      omega
    | succ j =>
      simp only [List.getElem?_cons_succ] at h
      have := ih j t t1 h
      simp only [List.set_cons_succ, List.map_cons, List.sum_cons]
      omega

/-- Every step leaves fewer steps to take. -/
theorem step_work_lt {s s1 : Sys M} {i : Nat} (h : s.step i = some s1) : s1.work < s.work := by
  obtain ⟨t, r, ht, hr, _, _, hth⟩ := sys_step_eq h
  have a := sum_map_set Thread.work s.threads i t r.1 ht
  have b := thread_step_work_lt hr
  simp only [Sys.work, hth]
  omega

/-- While no thread panics, every step is one step of the path without
panic. -/
theorem step_work {w : Mem M} {s s1 : Sys M} {i : Nat} (minv : MutexInv s) (inv : RegInv w s)
    (h : s.step i = some s1) : s1.work + 1 = s.work := by
  obtain ⟨t, r, ht, hr, _, _, hth⟩ := sys_step_eq h
  have hnp : r.1.panicked = false :=
    (regInv_step minv inv h).nopanic i r.1
      (by rw [hth]; exact (getElem?_set_iff ht).2 (Or.inl ⟨rfl, rfl⟩))
  have a := sum_map_set Thread.work s.threads i t r.1 ht
  have b := thread_step_work hr hnp
  simp only [Sys.work, hth]
  omega

theorem run_work {w : Mem M} (sched : List Nat) :
    ∀ (s s1 : Sys M), MutexInv s → RegInv w s → s.run sched = some s1 →
      s1.work + sched.length = s.work := by
  induction sched with
  | nil =>
    intro s s1 _ _ h
    simp only [Sys.run, Option.some.injEq] at h
    rw [← h]
    rfl
  | cons i rest ih =>
    intro s s1 minv inv h
    rw [run_cons] at h
    cases hs : s.step i with
    | none => rw [hs] at h; exact Option.noConfusion h
    | some s2 =>
      rw [hs] at h
      have a := ih s2 s1 (mutexInv_step minv hs) (regInv_step minv inv hs) h
      have b := step_work minv inv hs
      simp only [List.length_cons]
      omega

theorem spawn_work (w : Mem M) (l : List (String × M)) :
    (Sys.spawn w (registerCalls l)).work = 6 * l.length := by
  induction l with
  | nil => rfl
  | cons p rest ih =>
    simp only [Sys.work, Sys.spawn, registerCalls, List.map_cons, List.sum_cons,
      List.length_cons, Thread.start, Thread.work] at ih ⊢
    omega

theorem holds_not_finished {t : Thread M} (h : t.holds = true) : t.finished = false := by
  cases t with
  | register name mod pc => cases pc <;> first | rfl | exact Bool.noConfusion h
  | getJSModules pc => cases pc <;> first | rfl | exact Bool.noConfusion h

theorem finished_returned {t : Thread M} (hf : t.finished = true) (hp : t.panicked = false) :
    t.returned = true := by
  cases t with
  | register name mod pc =>
    cases pc with
    | done p =>
      cases p with
      | none => rfl
      | some v => exact Bool.noConfusion hp
    | _ => exact Bool.noConfusion hf
  | getJSModules pc =>
    cases pc with
    | done r => rfl
    | _ => exact Bool.noConfusion hf

theorem returned_written {t : Thread M} {n : String} {m : M} (hc : t.call = Call.register n m)
    (hr : t.returned = true) : t.written = true := by
  cases t with
  | register name mod pc =>
    cases pc with
    | done p =>
      cases p with
      | none => rfl
      | some v => exact Bool.noConfusion hr
    | _ => exact Bool.noConfusion hr
  | getJSModules pc => exact Call.noConfusion hc

/-- No deadlock: while the call of some thread has not ended, some thread has
a step. -/
theorem mutexInv_progress {s : Sys M} (inv : MutexInv s) {i : Nat} {t : Thread M}
    (ht : s.threads[i]? = some t) (hf : t.finished = false) :
    ∃ (j : Nat) (s1 : Sys M), s.step j = some s1 := by
  have go : ∀ (j : Nat) (y : Thread M), s.threads[j]? = some y →
      (y.step s.mem s.mx).isSome = true → ∃ s1 : Sys M, s.step j = some s1 := by
    intro j y hy hen
    obtain ⟨r, hr⟩ := Option.isSome_iff_exists.1 hen
    exact ⟨{ mem := r.2.1, mx := r.2.2, threads := s.threads.set j r.1 },
      by simp only [Sys.step, hy, hr]⟩
  cases hw : s.mx.writer
  · obtain ⟨s1, h1⟩ := go i t ht
      (thread_step_enabled s.mem s.mx t hf (Or.inr ⟨hw, inv.readers⟩))
    exact ⟨i, s1, h1⟩
  · obtain ⟨j, y, hy, hyh⟩ := inv.held hw
    obtain ⟨s1, h1⟩ := go j y hy
      (thread_step_enabled s.mem s.mx y (holds_not_finished hyh) (Or.inl hyh))
    exact ⟨j, s1, h1⟩

/-- Every state can be run to the end of all the calls. -/
theorem mutexInv_complete :
    ∀ (n : Nat) (s : Sys M), MutexInv s → s.work ≤ n →
      ∃ (ext : List Nat) (s1 : Sys M), s.run ext = some s1 ∧
        ∀ t ∈ s1.threads, t.finished = true := by
  intro n
  induction n with
  | zero =>
    intro s inv hn
    by_cases hall : ∀ t ∈ s.threads, t.finished = true
    · exact ⟨[], s, rfl, hall⟩
    · simp only [not_forall, Bool.not_eq_true] at hall
      obtain ⟨t, hmem, hf⟩ := hall
      obtain ⟨i, hi⟩ := List.mem_iff_getElem?.1 hmem
      obtain ⟨j, s1, h1⟩ := mutexInv_progress inv hi hf
      have := step_work_lt h1
      omega
  | succ n ih =>
    intro s inv hn
    by_cases hall : ∀ t ∈ s.threads, t.finished = true
    · exact ⟨[], s, rfl, hall⟩
    · simp only [not_forall, Bool.not_eq_true] at hall
      obtain ⟨t, hmem, hf⟩ := hall
      obtain ⟨i, hi⟩ := List.mem_iff_getElem?.1 hmem
      obtain ⟨j, s1, h1⟩ := mutexInv_progress inv hi hf
      have hlt := step_work_lt h1
      obtain ⟨ext, s2, hrun, hfin⟩ := ih s1 (mutexInv_step inv h1) (by omega)
      exact ⟨j :: ext, s2, by rw [run_cons, h1]; exact hrun, hfin⟩

/-- When all the calls have ended the lock is free. -/
theorem mutexInv_free_at_end {s : Sys M} (inv : MutexInv s)
    (hall : ∀ t ∈ s.threads, t.finished = true) : s.mx = RWMutex.free := by
  have hw : s.mx.writer = false := by
    cases hw : s.mx.writer
    · rfl
    · obtain ⟨j, y, hy, hyh⟩ := inv.held hw
      have a := holds_not_finished hyh
      rw [hall y (List.mem_iff_getElem?.2 ⟨j, hy⟩)] at a
      exact Bool.noConfusion a
  have hr := inv.readers
  cases hmx : s.mx with
  | mk wr rd =>
    rw [hmx] at hw hr
    simp only at hw hr
    rw [hw, hr]
    rfl

/-- One thread alone runs `Register(name, mod)` as the function `Register`
describes it: same memory at the end, same outcome, the lock free again. -/
theorem register_thread_alone (w : Mem M) (n : String) (m : M) :
    ∃ sched : List Nat, (Sys.spawn w [Call.register n m]).run sched =
      some { mem := (Register w n m).1, mx := RWMutex.free,
             threads := [Thread.register n m (RegPc.done (Register w n m).2)] } := by
  cases hp : HasPrefix n extPrefix
  · refine ⟨[0], ?_⟩
    rw [register_not_prefixed m hp]
    simp [Sys.run, Sys.step, Sys.spawn, Thread.start, Thread.step, hp]
  · cases hl : w.modules.lookup n with
    | some m0 =>
      refine ⟨[0, 0, 0, 0], ?_⟩
      rw [register_duplicate m hp hl]
      simp [Sys.run, Sys.step, Sys.spawn, Thread.start, Thread.step, hp, hl, RWMutex.Lock,
        RWMutex.free, RWMutex.Unlock]
    | none =>
      refine ⟨[0, 0, 0, 0, 0, 0], ?_⟩
      rw [register_fresh m hp hl]
      simp [Sys.run, Sys.step, Sys.spawn, Thread.start, Thread.step, hp, hl, RWMutex.Lock,
        RWMutex.free, RWMutex.Unlock, Mem.store, Mem.update]

/-- One thread alone runs `GetJSModules()` as the function `GetJSModules`
describes it: same memory at the end, same value returned, the lock free
again. -/
theorem getJSModules_thread_alone (w : Mem M) :
    (Sys.spawn w [Call.getJSModules]).run [0, 0, 0] =
      some { mem := (GetJSModules w).1, mx := RWMutex.free,
             threads := [Thread.getJSModules (GetPc.done (GetJSModules w).2)] } := by
  simp [Sys.run, Sys.step, Sys.spawn, Thread.start, Thread.step, RWMutex.Lock, RWMutex.free,
    RWMutex.Unlock]

/-- The bindings of `modules` once all the `Register` threads have ended. -/
theorem regInv_content_at_end {w : Mem M} {s : Sys M} {l : List (String × M)}
    (inv : RegInv w s) (hcalls : s.threads.map Thread.call = registerCalls l)
    (hall : ∀ t ∈ s.threads, t.finished = true) (k : String) (v : M) :
    s.mem.modules.lookup k = some v ↔ ((k, v) ∈ l ∨ w.modules.lookup k = some v) := by
  rw [inv.content k v, or_comm]
  apply or_congr_left
  constructor
  · rintro ⟨i, t, ht, hc, _⟩
    have h1 : (s.threads.map Thread.call)[i]? = some (Call.register k v) := by
      rw [List.getElem?_map, ht, ← hc]; rfl
    rw [hcalls] at h1
    simp only [registerCalls, List.getElem?_map, Option.map_eq_some'] at h1
    obtain ⟨p, hp, ep⟩ := h1
    injection ep with e1 e2
    apply List.mem_iff_getElem?.2
    refine ⟨i, ?_⟩
    rw [hp, ← e1, ← e2]
  · intro hmem
    obtain ⟨i, hi⟩ := List.mem_iff_getElem?.1 hmem
    have h1 : (registerCalls l)[i]? = some (Call.register k v) := by
      simp only [registerCalls, List.getElem?_map, hi]; rfl
    rw [← hcalls] at h1
    simp only [List.getElem?_map, Option.map_eq_some'] at h1
    obtain ⟨t, ht, hc⟩ := h1
    have hmem_t : t ∈ s.threads := List.mem_iff_getElem?.2 ⟨i, ht⟩
    exact ⟨i, t, ht, hc,
      returned_written hc (finished_returned (hall t hmem_t) (inv.nopanic i t ht))⟩

/-- The lock is what prevents lost updates: were two `Register` threads both
in the middle of their writes (a state mutual exclusion rules out), the
interleaving take, take, put, put would leave the first entry out of
`modules` although both threads have executed their write. -/
theorem lost_update_without_exclusion :
    (({ mem := Mem.init Nat, mx := { writer := true, readers := 0 },
        threads := [Thread.register "k6/x/a" 1 RegPc.writeLoad,
          Thread.register "k6/x/b" 2 RegPc.writeLoad] } : Sys Nat).run [0, 1, 0, 1]).map
      (fun s => (s.mem.modules.lookup "k6/x/a", s.mem.modules.lookup "k6/x/b",
        s.threads.map Thread.written)) =
      some (none, some 2, [true, true]) := by
  decide

end lemmas

/-! ## The registry contract -/

/-- C1: for every memory `w`, every name `n` that begins with `"k6/x/"` and is
not a key of `modules`, and every module value `m`, `Register(n, m)` returns
normally, and the map returned by a following `GetJSModules()` binds `n` to
exactly `m`. -/
theorem register_then_getJSModules {M : Type} (w : Mem M) (n : String) (m : M)
    (hp : HasPrefix n extPrefix = true) (hn : w.modules.lookup n = none) :
    (Register w n m).2 = none ∧
      ∃ mp, listed (Register w n m).1 = some mp ∧ mp.lookup n = some m := by
  refine ⟨(register_ok_iff w n m).2 ⟨hp, hn⟩, ?_⟩
  obtain ⟨mp, hl, hs⟩ := listed_same (Register w n m).1
  refine ⟨mp, hl, ?_⟩
  rw [hs n, register_fresh m hp hn]
  exact AList.lookup_insert _

theorem register_then_getJSModules_witness :
    (Register (Mem.init Nat) "k6/x/metrics" 7).2 = none ∧
      ∃ mp, listed (Register (Mem.init Nat) "k6/x/metrics" 7).1 = some mp ∧
        mp.lookup "k6/x/metrics" = some 7 :=
  register_then_getJSModules (Mem.init Nat) "k6/x/metrics" 7 (by decide) (by decide)

/-- C2: `Register(n, m)` panics if and only if `n` does not begin with the
prefix `"k6/x/"` or `n` is already a key of `modules`.  In particular every
string shorter than the prefix, the empty string included, is rejected, and
the name `"k6/x/"` itself is accepted when it is not yet registered. -/
theorem register_panics_iff {M : Type} (w : Mem M) (m : M) :
    (∀ n : String, (Register w n m).2 ≠ none ↔
      (HasPrefix n extPrefix = false ∨ w.modules.lookup n ≠ none)) ∧
    (∀ n : String, n.length < extPrefix.length → (Register w n m).2 ≠ none) ∧
    (Register w "" m).2 ≠ none ∧
    (w.modules.lookup "k6/x/" = none → (Register w "k6/x/" m).2 = none) := by
  have short : ∀ n : String, n.length < extPrefix.length →
      HasPrefix n extPrefix = false := by
    intro n hlt
    cases h : HasPrefix n extPrefix
    · rfl
    · exact absurd (hasPrefix_length_le h) (Nat.not_le.2 hlt)
  refine ⟨?_, ?_, ?_, ?_⟩
  · intro n
    rw [Ne, register_ok_iff]
    cases HasPrefix n extPrefix <;> simp
  · intro n hlt
    rw [register_not_prefixed m (short n hlt)]
    simp
  · rw [register_not_prefixed m (short "" (by decide))]
    simp
  · intro h
    exact (register_ok_iff w "k6/x/" m).2 ⟨hasPrefix_self extPrefix, h⟩

theorem register_panics_iff_witness :
    ((Register (Mem.init Nat) "k6/" 7).2 ≠ none ↔
      (HasPrefix "k6/" extPrefix = false ∨ (Mem.init Nat).modules.lookup "k6/" ≠ none)) ∧
    (Register (Mem.init Nat) "k6/x" 7).2 ≠ none ∧
    (Register (Mem.init Nat) "k6/x/" 7).2 = none :=
  ⟨(register_panics_iff (Mem.init Nat) 7).1 "k6/",
    (register_panics_iff (Mem.init Nat) 7).2.1 "k6/x" (by decide),
    (register_panics_iff (Mem.init Nat) 7).2.2.2 (by decide)⟩

/-- C3: for every memory `w`, every name `n` that does not begin with
`"k6/x/"` and every module `m`, `Register(n, m)` panics and the memory after
the failed call is `w`: `GetJSModules()` returns the same mapping before and
after. -/
theorem register_unprefixed_fails {M : Type} (w : Mem M) (n : String) (m : M)
    (hp : HasPrefix n extPrefix = false) :
    (Register w n m).2 ≠ none ∧ (Register w n m).1 = w ∧
      listed (Register w n m).1 = listed w := by
  rw [register_not_prefixed m hp]
  simp

theorem register_unprefixed_fails_witness :
    (Register (Register (Mem.init Nat) "k6/x/a" 1).1 "metrics" 7).2 ≠ none ∧
      (Register (Register (Mem.init Nat) "k6/x/a" 1).1 "metrics" 7).1 =
        (Register (Mem.init Nat) "k6/x/a" 1).1 ∧
      listed (Register (Register (Mem.init Nat) "k6/x/a" 1).1 "metrics" 7).1 =
        listed (Register (Mem.init Nat) "k6/x/a" 1).1 :=
  register_unprefixed_fails (Register (Mem.init Nat) "k6/x/a" 1).1 "metrics" 7 (by decide)

/-- C4: for every memory `w` in which the name `n` is bound to the module
`m0`, and every module `m`, `Register(n, m)` panics; afterwards `n` is still
bound to `m0` and every entry of the registry is unchanged (the memory is
`w`). -/
theorem register_duplicate_fails {M : Type} (w : Mem M) (n : String) (m0 m : M)
    (h : w.modules.lookup n = some m0) :
    (Register w n m).2 ≠ none ∧
      (Register w n m).1.modules.lookup n = some m0 ∧
      (Register w n m).1 = w ∧
      ∃ mp, listed (Register w n m).1 = some mp ∧ mp.lookup n = some m0 ∧
        SameMapping mp w.modules := by
  have hpanic : (Register w n m).2 ≠ none := by
    rw [Ne, register_ok_iff, h]
    simp
  have hmem : (Register w n m).1 = w := register_panic_mem w n m hpanic
  refine ⟨hpanic, by rw [hmem]; exact h, hmem, ?_⟩
  obtain ⟨mp, hl, hs⟩ := listed_same w
  exact ⟨mp, by rw [hmem]; exact hl, by rw [hs n]; exact h, hs⟩

theorem register_duplicate_fails_witness :
    (Register (Register (Mem.init Nat) "k6/x/metrics" 1).1 "k6/x/metrics" 2).2 ≠ none ∧
      (Register (Register (Mem.init Nat) "k6/x/metrics" 1).1 "k6/x/metrics" 2).1.modules.lookup
        "k6/x/metrics" = some 1 ∧
      (Register (Register (Mem.init Nat) "k6/x/metrics" 1).1 "k6/x/metrics" 2).1 =
        (Register (Mem.init Nat) "k6/x/metrics" 1).1 ∧
      ∃ mp, listed (Register (Register (Mem.init Nat) "k6/x/metrics" 1).1 "k6/x/metrics" 2).1 =
          some mp ∧ mp.lookup "k6/x/metrics" = some 1 ∧
        SameMapping mp (Register (Mem.init Nat) "k6/x/metrics" 1).1.modules :=
  register_duplicate_fails (Register (Mem.init Nat) "k6/x/metrics" 1).1 "k6/x/metrics" 1 2
    (by decide)

/-- C5: starting from the empty registry, after any sequence of `Register`
calls with names `n1..nk` and modules `m1..mk` that all return normally,
`GetJSModules()` returns a map whose key set is exactly `{n1..nk}`, which
binds each `ni` to `mi`, and which has `k` entries: none missing, none
additional. -/
theorem getJSModules_after_registers {M : Type} (l : List (String × M))
    (hok : ∀ o ∈ (runCalls (Mem.init M) (registerCalls l)).2, o = none) :
    ∃ mp, listed (runCalls (Mem.init M) (registerCalls l)).1 = some mp ∧
      (∀ k : String, k ∈ mp ↔ k ∈ l.map Prod.fst) ∧
      (∀ p ∈ l, mp.lookup p.1 = some p.2) ∧
      (∀ (k : String) (v : M), mp.lookup k = some v ↔ (k, v) ∈ l) ∧
      mp.entries.length = l.length := by
  obtain ⟨mp, hl, hs⟩ := listed_same (runCalls (Mem.init M) (registerCalls l)).1
  have key : ∀ (k : String) (v : M), mp.lookup k = some v ↔ (k, v) ∈ l := by
    intro k v
    rw [hs k, runCalls_register_lookup l (Mem.init M) hok k v]
    simp [Mem.init]
  refine ⟨mp, hl, ?_, ?_, key, ?_⟩
  · intro k
    rw [← AList.lookup_isSome, Option.isSome_iff_exists]
    simp only [key, List.mem_map, Prod.exists, exists_and_right, exists_eq_right]
  · intro p hp
    exact (key p.1 p.2).2 hp
  · rw [hs.perm.length_eq, runCalls_register_length l (Mem.init M) hok]
    simp [Mem.init]

theorem getJSModules_after_registers_witness :
    ∃ mp, listed (runCalls (Mem.init Nat) (registerCalls [("k6/x/metrics", 7)])).1 = some mp ∧
      (∀ k : String, k ∈ mp ↔ k ∈ [("k6/x/metrics", 7)].map Prod.fst) ∧
      (∀ p ∈ [("k6/x/metrics", 7)], mp.lookup p.1 = some p.2) ∧
      (∀ (k : String) (v : Nat), mp.lookup k = some v ↔ (k, v) ∈ [("k6/x/metrics", 7)]) ∧
      mp.entries.length = [("k6/x/metrics", 7)].length :=
  getJSModules_after_registers [("k6/x/metrics", 7)] (by decide)

/-- C6: `GetJSModules()` returns an independent copy and does not change the
registry.  The returned reference is not the reference of `modules`; whatever
mutations (insertions, overwrites, deletions) are made through it, they land
in the returned map only, `modules` is as before, and a subsequent
`GetJSModules()` returns, in a map object of its own, the mapping of `modules`,
the same mapping the first call returned. -/
theorem getJSModules_independent_copy {M : Type} (w : Mem M) (muts : List (Mutation M)) :
    (GetJSModules w).2 ≠ Ref.pkg ∧
    (GetJSModules w).1.modules = w.modules ∧
    (mutate (GetJSModules w).1 (GetJSModules w).2 muts).modules = w.modules ∧
    (GetJSModules (mutate (GetJSModules w).1 (GetJSModules w).2 muts)).2 ≠ (GetJSModules w).2 ∧
    ∃ mp1 mp2,
      listed w = some mp1 ∧
      (mutate (GetJSModules w).1 (GetJSModules w).2 muts).load (GetJSModules w).2 =
        some (muts.foldl Mutation.apply mp1) ∧
      listed (mutate (GetJSModules w).1 (GetJSModules w).2 muts) = some mp2 ∧
      SameMapping mp1 w.modules ∧ SameMapping mp2 w.modules ∧ SameMapping mp2 mp1 := by
  obtain ⟨mp1, hl1, hs1⟩ := listed_same w
  have hload : (GetJSModules w).1.heap[w.heap.length]? = some mp1 := by
    simpa [listed, getJSModules_ref, Mem.load] using hl1
  have hmut := mutate_obj muts (GetJSModules w).1 w.heap.length mp1 hload
  have hlen : (GetJSModules w).1.heap.length = w.heap.length + 1 := by
    rw [getJSModules_mem]
    simp
  have hmod : (mutate (GetJSModules w).1 (GetJSModules w).2 muts).modules = w.modules := by
    rw [getJSModules_ref, hmut]
    exact getJSModules_modules w
  obtain ⟨mp2, hl2, hs2⟩ := listed_same (mutate (GetJSModules w).1 (GetJSModules w).2 muts)
  rw [hmod] at hs2
  refine ⟨by rw [getJSModules_ref]; exact Ref.noConfusion, getJSModules_modules w, hmod, ?_,
    mp1, mp2, hl1, ?_, hl2, hs1, hs2, fun k => (hs2 k).trans (hs1 k).symm⟩
  · rw [getJSModules_ref, getJSModules_ref w, hmut]
    simp [hlen]
  · rw [getJSModules_ref, hmut]
    simp only [Mem.load]
    exact List.getElem?_set_self (by omega)

/-- C7: registry entries are never updated and never removed.  If the name `n`
is bound to `m`, it is still bound to `m` after any finite sequence of
`Register` calls (returning or panicking) and `GetJSModules` calls; in any such
sequence at most one `Register` call for `n` returns normally; and a
`Register(n, m1)` that returns normally binds `n` to `m1`, leaves the binding
of every other name as it was, and grows the registry by exactly one entry. -/
theorem registry_never_updated {M : Type} (w : Mem M) (n : String) (cs : List (Call M)) :
    (∀ m : M, w.modules.lookup n = some m → (runCalls w cs).1.modules.lookup n = some m) ∧
    successCount n w cs ≤ 1 ∧
    (∀ m1 : M, (Register w n m1).2 = none →
      (Register w n m1).1.modules.lookup n = some m1 ∧
      (∀ k : String, k ≠ n → (Register w n m1).1.modules.lookup k = w.modules.lookup k) ∧
      (Register w n m1).1.modules.entries.length = w.modules.entries.length + 1) := by
  refine ⟨fun m h => runCalls_lookup_some cs w h, successCount_le_one n cs w, ?_⟩
  intro m1 hok
  obtain ⟨hp, hl⟩ := (register_ok_iff w n m1).1 hok
  rw [register_fresh m1 hp hl]
  refine ⟨AList.lookup_insert _, fun k hk => AList.lookup_insert_ne hk, ?_⟩
  simp only [AList.insert_entries_of_neg (AList.lookup_eq_none.1 hl), List.length_cons]

theorem registry_never_updated_witness :
    (runCalls (Register (Mem.init Nat) "k6/x/metrics" 1).1
        [Call.register "k6/x/metrics" 2, Call.getJSModules, Call.register "k6/x/b" 3,
          Call.register "b" 4]).1.modules.lookup "k6/x/metrics" = some 1 ∧
    successCount "k6/x/b" (Mem.init Nat)
        [Call.register "k6/x/b" 2, Call.getJSModules, Call.register "k6/x/b" 3] ≤ 1 ∧
    (Register (Mem.init Nat) "k6/x/b" 3).1.modules.entries.length =
      (Mem.init Nat).modules.entries.length + 1 :=
  ⟨(registry_never_updated (Register (Mem.init Nat) "k6/x/metrics" 1).1 "k6/x/metrics"
      [Call.register "k6/x/metrics" 2, Call.getJSModules, Call.register "k6/x/b" 3,
        Call.register "b" 4]).1 1 (by decide),
    (registry_never_updated (Mem.init Nat) "k6/x/b"
      [Call.register "k6/x/b" 2, Call.getJSModules, Call.register "k6/x/b" 3]).2.1,
    ((registry_never_updated (Mem.init Nat) "k6/x/b" []).2.2 3 (by decide)).2.2⟩

/-- C8: in every memory reached from the initial, empty registry by any
sequence of `Register` and `GetJSModules` calls (panicking calls included),
every registered name begins with the prefix `"k6/x/"`. -/
theorem registered_names_prefixed {M : Type} (cs : List (Call M)) (k : String)
    (hk : k ∈ (runCalls (Mem.init M) cs).1.modules) : HasPrefix k extPrefix = true :=
  runCalls_prefixed cs (Mem.init M) (fun _ h => absurd h (AList.not_mem_empty _)) k hk

theorem registered_names_prefixed_witness :
    "k6/x/b" ∈ (runCalls (Mem.init Nat)
        [Call.register "b" 4, Call.register "k6/x/b" 2, Call.getJSModules,
          Call.register "k6/x/b" 3]).1.modules ∧
      HasPrefix "k6/x/b" extPrefix = true :=
  ⟨by decide,
    registered_names_prefixed
      [Call.register "b" 4, Call.register "k6/x/b" 2, Call.getJSModules,
        Call.register "k6/x/b" 3] "k6/x/b" (by decide)⟩

/-- C9: concurrent `Register` calls with pairwise distinct, `"k6/x/"`-prefixed,
not yet registered names, run by threads of control in any interleaving, all
succeed, and all appear in a subsequent `GetJSModules()` result (no lost
updates).  In every state `s` reached by an interleaving `sched` of the
threads: the threads run the calls given; at most one thread is between its
`mx.Lock()` and its `mx.Unlock()`, so no write starts while another is under
way; no call has panicked; the binding of every call that has returned is in
`modules`; while some call has not ended some thread has a step (no deadlock);
exactly `6 * k - length sched` steps remain, so every interleaving ends; the
interleaving can be continued until all calls have ended; and when all calls
have ended, all have returned normally, the lock is free, `modules` holds its
former bindings and one binding per call (the mapping left by the same calls
made one after the other), and the map returned by `GetJSModules()` binds every
name to its module. -/
theorem concurrent_registers {M : Type} (w : Mem M) (l : List (String × M))
    (hnd : (l.map Prod.fst).Nodup)
    (hpre : ∀ p ∈ l, HasPrefix p.1 extPrefix = true)
    (hfresh : ∀ p ∈ l, w.modules.lookup p.1 = none)
    (sched : List Nat) (s : Sys M)
    (hrun : (Sys.spawn w (registerCalls l)).run sched = some s) :
    s.threads.map Thread.call = registerCalls l ∧
    (∀ (i j : Nat) (ti tj : Thread M), s.threads[i]? = some ti → s.threads[j]? = some tj →
      ti.holds = true → tj.holds = true → i = j) ∧
    (∀ t ∈ s.threads, t.panicked = false) ∧
    (∀ t ∈ s.threads, ∀ (n : String) (m : M), t.call = Call.register n m →
      t.returned = true → s.mem.modules.lookup n = some m) ∧
    ((∃ t ∈ s.threads, t.finished = false) → ∃ (i : Nat) (s1 : Sys M), s.step i = some s1) ∧
    s.work + sched.length = 6 * l.length ∧
    (∃ (ext : List Nat) (s1 : Sys M), s.run ext = some s1 ∧
      ∀ t ∈ s1.threads, t.finished = true) ∧
    ((∀ t ∈ s.threads, t.finished = true) →
      (∀ t ∈ s.threads, t.returned = true) ∧
      s.mx = RWMutex.free ∧
      (∀ (k : String) (v : M), s.mem.modules.lookup k = some v ↔
        ((k, v) ∈ l ∨ w.modules.lookup k = some v)) ∧
      SameMapping s.mem.modules (runCalls w (registerCalls l)).1.modules ∧
      ∃ mp, listed s.mem = some mp ∧ ∀ p ∈ l, mp.lookup p.1 = some p.2) := by
  have minv0 : MutexInv (Sys.spawn w (registerCalls l)) := mutexInv_spawn w (registerCalls l)
  have rinv0 : RegInv w (Sys.spawn w (registerCalls l)) := regInv_spawn w l hnd hpre hfresh
  have minv : MutexInv s := mutexInv_run minv0 hrun
  have rinv : RegInv w s := regInv_run minv0 rinv0 hrun
  have hcalls : s.threads.map Thread.call = registerCalls l :=
    (run_calls hrun).trans (spawn_calls w (registerCalls l))
  refine ⟨hcalls, minv.excl, ?_, ?_, ?_, ?_, ?_, ?_⟩
  · intro t ht
    obtain ⟨i, hi⟩ := List.mem_iff_getElem?.1 ht
    exact rinv.nopanic i t hi
  · intro t ht n m hc hr
    obtain ⟨i, hi⟩ := List.mem_iff_getElem?.1 ht
    exact (rinv.content n m).2 (Or.inr ⟨i, t, hi, hc, returned_written hc hr⟩)
  · rintro ⟨t, ht, hf⟩
    obtain ⟨i, hi⟩ := List.mem_iff_getElem?.1 ht
    exact mutexInv_progress minv hi hf
  · rw [run_work sched _ s minv0 rinv0 hrun, spawn_work]
  · exact mutexInv_complete s.work s minv (Nat.le_refl _)
  · intro hall
    have hcontent := regInv_content_at_end rinv hcalls hall
    have hseq : SameMapping s.mem.modules (runCalls w (registerCalls l)).1.modules := by
      intro k
      apply Option.ext
      intro v
      have a := runCalls_register_lookup l w
        (by rw [runCalls_register_ok l w hnd hpre hfresh]
            intro o ho
            exact (List.mem_replicate.1 ho).2) k v
      simp only [Option.mem_def]
      rw [a, hcontent k v]
    obtain ⟨mp, hl, hs⟩ := listed_same s.mem
    refine ⟨?_, mutexInv_free_at_end minv hall, hcontent, hseq, mp, hl, ?_⟩
    · intro t ht
      obtain ⟨i, hi⟩ := List.mem_iff_getElem?.1 ht
      exact finished_returned (hall t ht) (rinv.nopanic i t hi)
    · intro p hp
      rw [hs p.1]
      exact (hcontent p.1 p.2).2 (Or.inl hp)

theorem concurrent_registers_witness :
    ∃ s : Sys Nat,
      (Sys.spawn (Mem.init Nat) (registerCalls [("k6/x/a", 1), ("k6/x/b", 2)])).run
        [0, 1, 0, 0, 0, 0, 0, 1, 1, 1, 1, 1] = some s ∧
      (∀ t ∈ s.threads, t.finished = true) ∧
      (∀ t ∈ s.threads, t.returned = true) ∧
      s.mx = RWMutex.free ∧
      ∃ mp, listed s.mem = some mp ∧
        ∀ p ∈ [("k6/x/a", 1), ("k6/x/b", 2)], mp.lookup p.1 = some p.2 := by
  have hsome : ((Sys.spawn (Mem.init Nat) (registerCalls [("k6/x/a", 1), ("k6/x/b", 2)])).run
      [0, 1, 0, 0, 0, 0, 0, 1, 1, 1, 1, 1]).isSome = true := by decide
  obtain ⟨s, hs⟩ := Option.isSome_iff_exists.1 hsome
  have hfin : ∀ t ∈ s.threads, t.finished = true := by
    have h0 : ∀ x ∈ (Sys.spawn (Mem.init Nat)
        (registerCalls [("k6/x/a", 1), ("k6/x/b", 2)])).run
          [0, 1, 0, 0, 0, 0, 0, 1, 1, 1, 1, 1],
        ∀ t ∈ x.threads, t.finished = true := by decide
    exact h0 s hs
  have h := concurrent_registers (Mem.init Nat) [("k6/x/a", 1), ("k6/x/b", 2)]
    (by decide) (by decide) (by decide) [0, 1, 0, 0, 0, 0, 0, 1, 1, 1, 1, 1] s hs
  exact ⟨s, hs, hfin, (h.2.2.2.2.2.2.2 hfin).1, (h.2.2.2.2.2.2.2 hfin).2.1,
    (h.2.2.2.2.2.2.2 hfin).2.2.2.2⟩

/-- C10: the final contents of the registry do not depend on the order of
registration.  For every memory `w` and every list `l` of pairwise distinct,
`"k6/x/"`-prefixed names not in `modules`, with their modules, running the
`Register` calls in the order of any permutation `l1` of `l` makes every call
return normally and yields the same registry: the same mapping in `modules`
and the same mapping returned by `GetJSModules()`. -/
theorem register_order_independent {M : Type} (w : Mem M) (l l1 : List (String × M))
    (hperm : l1.Perm l) (hnd : (l.map Prod.fst).Nodup)
    (hpre : ∀ p ∈ l, HasPrefix p.1 extPrefix = true)
    (hfresh : ∀ p ∈ l, w.modules.lookup p.1 = none) :
    (runCalls w (registerCalls l1)).2 = List.replicate l1.length none ∧
    (runCalls w (registerCalls l)).2 = List.replicate l.length none ∧
    SameMapping (runCalls w (registerCalls l1)).1.modules
      (runCalls w (registerCalls l)).1.modules ∧
    ∃ mp mp1, listed (runCalls w (registerCalls l)).1 = some mp ∧
      listed (runCalls w (registerCalls l1)).1 = some mp1 ∧ SameMapping mp1 mp := by
  have hok := runCalls_register_ok l w hnd hpre hfresh
  have hok1 := runCalls_register_ok l1 w ((hperm.map Prod.fst).nodup_iff.2 hnd)
    (fun p hp => hpre p (hperm.mem_iff.1 hp)) (fun p hp => hfresh p (hperm.mem_iff.1 hp))
  have hsame : SameMapping (runCalls w (registerCalls l1)).1.modules
      (runCalls w (registerCalls l)).1.modules := by
    intro k
    apply Option.ext
    intro v
    have a := runCalls_register_lookup l w
      (by rw [hok]; intro o ho; exact (List.mem_replicate.1 ho).2) k v
    have b := runCalls_register_lookup l1 w
      (by rw [hok1]; intro o ho; exact (List.mem_replicate.1 ho).2) k v
    simp only [Option.mem_def]
    rw [a, b, hperm.mem_iff]
  obtain ⟨mp, hl, hs⟩ := listed_same (runCalls w (registerCalls l)).1
  obtain ⟨mp1, hl1, hs1⟩ := listed_same (runCalls w (registerCalls l1)).1
  exact ⟨hok1, hok, hsame, mp, mp1, hl, hl1,
    fun k => ((hs1 k).trans (hsame k)).trans (hs k).symm⟩

theorem register_order_independent_witness :
    (runCalls (Mem.init Nat) (registerCalls [("k6/x/b", 2), ("k6/x/a", 1)])).2 =
      List.replicate [("k6/x/b", 2), ("k6/x/a", 1)].length none ∧
    (runCalls (Mem.init Nat) (registerCalls [("k6/x/a", 1), ("k6/x/b", 2)])).2 =
      List.replicate [("k6/x/a", 1), ("k6/x/b", 2)].length none ∧
    SameMapping (runCalls (Mem.init Nat) (registerCalls [("k6/x/b", 2), ("k6/x/a", 1)])).1.modules
      (runCalls (Mem.init Nat) (registerCalls [("k6/x/a", 1), ("k6/x/b", 2)])).1.modules ∧
    ∃ mp mp1, listed (runCalls (Mem.init Nat) (registerCalls [("k6/x/a", 1), ("k6/x/b", 2)])).1 =
        some mp ∧
      listed (runCalls (Mem.init Nat) (registerCalls [("k6/x/b", 2), ("k6/x/a", 1)])).1 =
        some mp1 ∧ SameMapping mp1 mp :=
  register_order_independent (Mem.init Nat) [("k6/x/a", 1), ("k6/x/b", 2)]
    [("k6/x/b", 2), ("k6/x/a", 1)] (List.Perm.swap _ _ _) (by decide) (by decide) (by decide)

/-! ## The execution context, the lock and the panic values -/

/-- The declaration of the interface `VU` does not by itself relate
`InitEnv()` to `State()`: a record with both nil, or with both populated, is
well typed.  That exactly one is populated is a property of the contexts that
are built, not of the type. -/
theorem vu_record_unconstrained :
    (VU.mk (some ()) none none (some ()) : VU Unit Unit Unit Unit).exactlyOne = false ∧
    (VU.mk (some ()) (some ()) (some ()) (some ()) : VU Unit Unit Unit Unit).exactlyOne =
      false := by
  exact ⟨rfl, rfl⟩

/-- C11: for every execution-context accessor, exactly one of `InitEnv()` and
`State()` is populated at any moment: they are never both present and never
both absent.  On the context of the spec, at every moment of its life (created
in compile phase, then entered into run phase any number of times) the
accessor has exactly one of the two populated; while the context is in compile
phase it is `InitEnv()`, with the environment the context was created with, and
once the context has entered run phase it is `State()`, with the state last
entered. -/
theorem accessor_exactly_one {C E S R : Type} (signal : C) (env : E) (evaluator : R)
    (runs : List S) :
    (ExecContext.life signal env evaluator runs).accessor.exactlyOne = true ∧
    ((ExecContext.life signal env evaluator ([] : List S)).accessor.InitEnv = some env ∧
      (ExecContext.life signal env evaluator ([] : List S)).accessor.State = none) ∧
    (∀ (rest : List S) (st : S),
      (ExecContext.life signal env evaluator (rest ++ [st])).accessor.InitEnv = none ∧
      (ExecContext.life signal env evaluator (rest ++ [st])).accessor.State = some st) := by
  have last : ∀ (rest : List S) (st : S),
      (ExecContext.life signal env evaluator (rest ++ [st])).accessor.InitEnv = none ∧
      (ExecContext.life signal env evaluator (rest ++ [st])).accessor.State = some st := by
    intro rest st
    simp only [ExecContext.life, List.foldl_append, List.foldl_cons, List.foldl_nil,
      ExecContext.enterRun, ExecContext.accessor, and_self]
  refine ⟨?_, ⟨rfl, rfl⟩, last⟩
  rcases List.eq_nil_or_concat runs with e | ⟨rest, st, e⟩
  · rw [e]
    rfl
  · rw [e, List.concat_eq_append]
    obtain ⟨h1, h2⟩ := last rest st
    simp only [VU.exactlyOne, h1, h2]
    rfl

/-- C12: `GetJSModules()` should take only the read side of the lock, so that
two calls can hold it together; the code takes the write side (`mx.Lock()`,
line 69, on the `sync.RWMutex` of line 40).  With two concurrent
`GetJSModules` calls, once the first has executed `mx.Lock()` the lock is held
for writing and by no reader, the second call has no step, and no interleaving
reaches a state where both calls hold the lock. -/
theorem getJSModules_lock_not_shared :
    ((Sys.spawn (Mem.init Nat) [Call.getJSModules, Call.getJSModules]).run [0]).map
        (fun s => (s.mx, s.threads.map Thread.holds)) =
      some ({ writer := true, readers := 0 }, [true, false]) ∧
    ((Sys.spawn (Mem.init Nat) [Call.getJSModules, Call.getJSModules]).run [0, 1]).isNone =
      true ∧
    ¬ ∃ (sched : List Nat) (s : Sys Nat),
        (Sys.spawn (Mem.init Nat) [Call.getJSModules, Call.getJSModules]).run sched = some s ∧
        ∀ t ∈ s.threads, t.holds = true := by
  refine ⟨by decide, by decide, ?_⟩
  rintro ⟨sched, s, hrun, hall⟩
  have inv : MutexInv s := mutexInv_run (mutexInv_spawn _ _) hrun
  have hcalls : s.threads.map Thread.call = [Call.getJSModules, Call.getJSModules] :=
    (run_calls hrun).trans (spawn_calls _ _)
  have hlen : s.threads.length = 2 := by
    rw [← List.length_map s.threads Thread.call, hcalls]
    rfl
  have h0 : s.threads[0]? = some (s.threads[0]) := List.getElem?_eq_getElem (by omega)
  have h1 : s.threads[1]? = some (s.threads[1]) := List.getElem?_eq_getElem (by omega)
  have e := inv.excl 0 1 _ _ h0 h1 (hall _ (List.getElem_mem _)) (hall _ (List.getElem_mem _))
  exact absurd e (by decide)

/-- What the code does with the lock: `GetJSModules()` acquires the write side,
the side `Register` acquires (no function takes the read side), holds it
while it copies the map and releases it when the copy is done, so that two
calls never hold the lock at the same time.  In every state reached by an
interleaving of any calls: the lock has no reader; it is held for writing
exactly when some thread is between its `mx.Lock()` and its `mx.Unlock()`; and
at most one thread is.  The `mx.Lock()` of `GetJSModules` has a step only on a
free lock and takes it for writing; the copy is made by the thread holding the
lock; the deferred `mx.Unlock()` releases the write side, after which the
thread no longer holds the lock. -/
theorem getJSModules_lock_exclusive {M : Type} (w : Mem M) (cs : List (Call M))
    (sched : List Nat) (s : Sys M) (hrun : (Sys.spawn w cs).run sched = some s) :
    s.mx.readers = 0 ∧
    (s.mx.writer = true ↔ ∃ (i : Nat) (t : Thread M), s.threads[i]? = some t ∧ t.holds = true) ∧
    (∀ (i j : Nat) (ti tj : Thread M), s.threads[i]? = some ti → s.threads[j]? = some tj →
      ti.holds = true → tj.holds = true → i = j) ∧
    (∀ (mem : Mem M) (mx : RWMutex) (r : Thread M × Mem M × RWMutex),
      Thread.step mem mx (Thread.getJSModules GetPc.lock) = some r →
      mx = RWMutex.free ∧
        r = (Thread.getJSModules GetPc.copy, mem, { writer := true, readers := 0 })) ∧
    (∀ (mem : Mem M) (mx : RWMutex),
      (Thread.getJSModules GetPc.copy : Thread M).holds = true ∧
      Thread.step mem mx (Thread.getJSModules GetPc.copy) =
        some (Thread.getJSModules (GetPc.unlock (GetJSModules mem).2), (GetJSModules mem).1, mx)) ∧
    (∀ (mem : Mem M) (mx : RWMutex) (ref : Ref),
      (Thread.getJSModules (GetPc.unlock ref) : Thread M).holds = true ∧
      Thread.step mem mx (Thread.getJSModules (GetPc.unlock ref)) =
        some (Thread.getJSModules (GetPc.done ref), mem,
          { writer := false, readers := mx.readers }) ∧
      (Thread.getJSModules (GetPc.done ref) : Thread M).holds = false) := by
  have inv : MutexInv s := mutexInv_run (mutexInv_spawn w cs) hrun
  refine ⟨inv.readers, ⟨inv.held, ?_⟩, inv.excl, ?_, fun _ _ => ⟨rfl, rfl⟩,
    fun _ _ _ => ⟨rfl, rfl, rfl⟩⟩
  · rintro ⟨i, t, ht, hh⟩
    cases hw : s.mx.writer
    · rw [inv.free hw i t ht] at hh
      exact Bool.noConfusion hh
    · rfl
  · intro mem mx r h
    simp only [Thread.step] at h
    split at h
    · rename_i mx1 hl
      obtain ⟨a, b, c, d⟩ := lock_eq_some hl
      simp only [Option.some.injEq] at h
      subst h
      refine ⟨?_, ?_⟩
      · cases mx with
        | mk wr rd =>
          simp only at a b
          rw [a, b]
          rfl
      · cases mx1 with
        | mk wr rd =>
          simp only at c d
          rw [c, d]
    · exact Option.noConfusion h

theorem getJSModules_lock_exclusive_witness :
    ∃ s : Sys Nat,
      (Sys.spawn (Mem.init Nat)
        [Call.getJSModules, Call.register "k6/x/a" 1, Call.getJSModules]).run [0, 1, 0] =
          some s ∧
      s.mx.readers = 0 ∧ s.mx.writer = true ∧
      (∀ (i j : Nat) (ti tj : Thread Nat), s.threads[i]? = some ti → s.threads[j]? = some tj →
        ti.holds = true → tj.holds = true → i = j) := by
  have hsome : ((Sys.spawn (Mem.init Nat)
      [Call.getJSModules, Call.register "k6/x/a" 1, Call.getJSModules]).run [0, 1, 0]).isSome =
      true := by decide
  obtain ⟨s, hs⟩ := Option.isSome_iff_exists.1 hsome
  have hw : ∀ x ∈ (Sys.spawn (Mem.init Nat)
      [Call.getJSModules, Call.register "k6/x/a" 1, Call.getJSModules]).run [0, 1, 0],
      x.mx.writer = true := by decide
  have h := getJSModules_lock_exclusive (Mem.init Nat)
    [Call.getJSModules, Call.register "k6/x/a" 1, Call.getJSModules] [0, 1, 0] s hs
  exact ⟨s, hs, h.1, hw s hs, h.2.2.1⟩

/-- C13: the two misuse failures of `Register` are distinguishable and name
the offending module.  For every name `n` lacking the prefix the panic value is
an error whose message is `"external module names must be prefixed with
'k6/x/', tried to register: "` followed by `n`; for every prefixed name `n`
already registered it is the string `"module already registered: "` followed
by `n`; an error value is never a string value.  The prefix check is made
first, before the registry is consulted: for a name lacking the prefix the
outcome is the same whatever the registry holds, and the thread panics at the
prefix test without a step on the lock, held or not. -/
theorem register_panic_values {M : Type} (w : Mem M) (n : String) (m : M) :
    (HasPrefix n extPrefix = false →
      (Register w n m).2 = some (PanicValue.error
        ("external module names must be prefixed with 'k6/x/', tried to register: " ++ n))) ∧
    (HasPrefix n extPrefix = true → w.modules.lookup n ≠ none →
      (Register w n m).2 = some (PanicValue.str ("module already registered: " ++ n))) ∧
    (∀ a b : String, PanicValue.error a ≠ PanicValue.str b) ∧
    (HasPrefix n extPrefix = false → ∀ w2 : Mem M, (Register w2 n m).2 = (Register w n m).2) ∧
    (HasPrefix n extPrefix = false → ∀ (mem : Mem M) (mx : RWMutex),
      Thread.step mem mx (Thread.register n m RegPc.checkPrefix) =
        some (Thread.register n m (RegPc.done (some (PanicValue.error
          ("external module names must be prefixed with 'k6/x/', tried to register: " ++ n)))),
          mem, mx)) := by
  have hmsg : prefixMsg n =
      "external module names must be prefixed with 'k6/x/', tried to register: " ++ n := by
    unfold prefixMsg extPrefix
    rfl
  refine ⟨?_, ?_, fun _ _ h => PanicValue.noConfusion h, ?_, ?_⟩
  · intro hp
    rw [register_not_prefixed m hp, hmsg]
  · intro hp hl
    cases hl0 : w.modules.lookup n with
    | none => exact absurd hl0 hl
    | some m0 =>
      rw [register_duplicate m hp hl0]
      rfl
  · intro hp w2
    rw [register_not_prefixed m hp, register_not_prefixed m hp]
  · intro hp mem mx
    simp only [Thread.step, hp, Bool.not_false, if_true, hmsg]

theorem register_panic_values_witness :
    (Register ({ modules := AList.singleton "metrics" 5, heap := [] } : Mem Nat) "metrics" 7).2 =
      some (PanicValue.error
        ("external module names must be prefixed with 'k6/x/', tried to register: " ++
          "metrics")) ∧
    (Register (Register (Mem.init Nat) "k6/x/metrics" 1).1 "k6/x/metrics" 2).2 =
      some (PanicValue.str ("module already registered: " ++ "k6/x/metrics")) :=
  ⟨(register_panic_values ({ modules := AList.singleton "metrics" 5, heap := [] } : Mem Nat)
      "metrics" 7).1 (by decide),
    (register_panic_values (Register (Mem.init Nat) "k6/x/metrics" 1).1 "k6/x/metrics" 2).2.1
      (by decide) (by decide)⟩

/-- C14: `getInterfaceMethods()` returns the list of the method names of the
`Instance` interface, which is exactly the one-element list `["Exports"]`; its
length is the number of methods declared by `Instance`. -/
theorem getInterfaceMethods_eq :
    getInterfaceMethods = some ["Exports"] ∧
    getInterfaceMethods = some Instance.methods ∧
    getInterfaceMethods.map List.length = some Instance.methods.length ∧
    Instance.methods.length = 1 := by
  refine ⟨by decide, by decide, by decide, rfl⟩


end modules
